import Mathlib

/-!
Verification of the server-side validity-estimation engine of the
grpc-caching-interceptors repository.

Shallow embedding conventions:
* wall-clock instants (`time.Time`) are natural numbers of nanoseconds
  since the epoch;
* durations (`time.Duration`, an `int64` of nanoseconds in Go) are `Int`;
* protobuf reply messages are abstracted to `Nat` values compared by
  decidable equality (the code only ever compares replies via
  `proto.Equal` and clones them);
* Go's `float64` arithmetic is modelled with `ℚ`; in every place the code
  converts a float back to an integer (`int(...)` / `int64(...)`) we
  truncate toward zero, which is Go's conversion rule;
* Go integer division truncates toward zero, modelled by `Int.tdiv`.
-/

namespace GrpcCache

/-- Nanoseconds per second (`time.Second` in Go). -/
def nanosPerSecond : Int := 1000000000

/-- MaximumCacheValidity from src/server/interceptor.go (lines 206-210):
the highest number of seconds that an object can be considered valid. -/
def MaximumCacheValidity : Nat := 45

/-- Go conversion of a float64 (here `ℚ`) to an integer: truncation
toward zero. -/
def ratTrunc (q : ℚ) : Int :=
  if 0 ≤ q then Int.floor q else Int.ceil q

/-- One recorded observation of a reply flowing through the server
(struct `verification` in the source): the reply payload and the
wall-clock timestamp it was observed at. -/
structure verification where
  reply : Nat
  timestamp : Nat
  deriving Repr, DecidableEq

/-- One recorded validity estimate (struct `estimation` in the source). -/
structure estimation where
  validity : Int
  timestamp : Nat
  deriving Repr, DecidableEq

/-- One recorded sampling interval (struct `interval` in the source). -/
structure interval where
  duration : Int
  timestamp : Nat
  deriving Repr, DecidableEq

/-- EqualVerifications (src/server/utilities.go, lines 10-12): two
verifications are equal when their replies are `proto.Equal`. -/
def EqualVerifications (a b : verification) : Bool :=
  a.reply == b.reply

/-- Loop body of BackwardsUpdateDistance (src/server/utilities.go,
lines 25-32).  `rev` is the observation history from newest to oldest
(the Go loop runs the index `i` from `len-1` down to `0`), `v` is the
most recent value seen during iteration, `updates` the number of
recorded timestamps and `acc` the recorded timestamps in recording
order. -/
def budLoop (K : Nat) : verification → List verification → Nat → List Nat →
    List Nat × Nat
  | _, [], updates, acc => (acc, updates)
  | v, current :: rest, updates, acc =>
    if updates < K then
      if EqualVerifications v current then
        budLoop K v rest updates acc
      else
        budLoop K current rest (updates + 1) (acc ++ [current.timestamp])
    else (acc, updates)

/-- BackwardsUpdateDistance (src/server/utilities.go, lines 16-39):
iterate the history from newest to oldest, record the timestamp of every
observation whose reply differs from the most recent value seen, stop
after `K` records or when the history is exhausted.  The Go function
indexes `(*verifications)[len(*verifications)-1]`, which panics on an
empty slice; that case is `none`.  The returned list models the Go
`make([]time.Time, K)` array: the recorded timestamps in recording order
padded with the zero time up to length `K`. -/
def BackwardsUpdateDistance (verifications : List verification) (K : Nat) :
    Option (List Nat × Nat) :=
  match verifications.getLast? with
  | none => none
  | some v =>
    let r := budLoop K v verifications.reverse 0 []
    some (r.1 ++ List.replicate (K - r.2) 0, r.2)

/-- determineEstimation of simplisticStrategy (src/server/simplistic.go,
lines 20-35): find the longest suffix of the history whose replies all
equal the most recent one, let `unchanged` be its span in whole seconds,
and return `unchanged/2` seconds.  The Go code indexes the last element
of the history, which panics on an empty slice; that case is `none`.
The Go loop assigns `oldestVerification` at every index (scanning from
newest to oldest) while the reply equals the newest reply and breaks at
the first mismatch, so `oldestVerification` is the last element of the
matching prefix of the reversed history. -/
def simplisticDetermineEstimation (verifications : List verification) :
    Option Int :=  -- validity in nanoseconds
  match verifications.getLast? with
  | none => none
  | some lastVerification =>
    let matching := verifications.reverse.takeWhile
      (fun v => EqualVerifications v lastVerification)
    let oldestVerification := matching.getLast?.getD ⟨0, 0⟩
    let unchanged : Int :=
      Int.tdiv ((lastVerification.timestamp : Int) - oldestVerification.timestamp)
        nanosPerSecond
    some (Int.tdiv unchanged 2 * nanosPerSecond)

/-- determineInterval of simplisticStrategy (src/server/simplistic.go,
lines 16-18): always five seconds. -/
def simplisticDetermineInterval : Int := 5 * nanosPerSecond

/-- Mutable state of dynamicTBG1Strategy (src/server/dynamic_tbg1.go,
lines 11-14).  `prevMessage` is `none` for the Go zero value (whose
`reply` field is a nil message, never `proto.Equal` to an observed
reply). -/
structure dynamicTBG1Strategy where
  prevMessage : Option verification
  deltaTimestamps : List Nat
  deriving Repr, DecidableEq

/-- Comparison of the newest message against the stored previous message
in dynamicTBG1Strategy.determineEstimation: `proto.Equal` against the
zero-value previous message is false. -/
def tbg1Equal (prev : Option verification) (m : verification) : Bool :=
  match prev with
  | none => false
  | some p => p.reply == m.reply

/-- Sum of consecutive differences of a list of timestamps: the Go loop
`for i := nbrDelta - 1; i > 0; i--` adds `ts[i] - ts[i-1]` for every
adjacent pair. -/
def consecDiffSum : List Nat → Int
  | [] => 0
  | [_] => 0
  | a :: b :: rest => ((b : Int) - (a : Int)) + consecDiffSum (b :: rest)

/-- determineEstimation of dynamicTBG1Strategy
(src/server/dynamic_tbg1.go, lines 30-51): append the newest timestamp
to `deltaTimestamps` when the newest reply `proto.Equal`s the stored
previous one, average the consecutive timestamp gaps in seconds over the
number of stored timestamps, save the newest message, and return the
truncated average as a duration (in nanosecond units).  Returns the new
strategy state alongside the validity.  Panics (`none`) on an empty
history. -/
def tbg1DetermineEstimation (strat : dynamicTBG1Strategy)
    (verifications : List verification) :
    Option (Int × dynamicTBG1Strategy) :=
  match verifications.getLast? with
  | none => none
  | some newMessage =>
    let deltas :=
      if tbg1Equal strat.prevMessage newMessage then
        strat.deltaTimestamps ++ [newMessage.timestamp]
      else strat.deltaTimestamps
    let nbrDelta := deltas.length
    let avgDur : ℚ :=
      if nbrDelta = 0 then 0
      else ((consecDiffSum deltas : ℚ) / (nanosPerSecond : ℚ)) / (nbrDelta : ℚ)
    some (ratTrunc avgDur, { prevMessage := some newMessage, deltaTimestamps := deltas })

/-- determineInterval of dynamicTBG1Strategy
(src/server/dynamic_tbg1.go, lines 22-28): half of the most recent
estimate, or an error (`Except.error`) with sentinel `-1` when no
estimate exists yet. -/
def tbg1DetermineInterval (estimations : List estimation) : Except Unit Int :=
  match estimations.getLast? with
  | some e => .ok (Int.tdiv e.validity 2)
  | none => .error ()

/-- determineEstimation of adaptiveStrategy (src/server/strat_adaptive.go,
lines 32-51, identical maths in src/server/adaptive.go lines 23-38):
take the backwards 1-update distance; if no update was recorded use the
oldest observation's timestamp as the last modification time, otherwise
the single recorded timestamp; return `alpha * (now - lastModification)`
truncated to an integer number of nanoseconds.  Panics (`none`) on an
empty history (the last-element indexing inside backwardsUpdateDistance). -/
def adaptiveDetermineEstimation (alpha : ℚ) (now : Nat)
    (verifications : List verification) : Option Int :=
  match BackwardsUpdateDistance verifications 1 with
  | none => none
  | some (timestamps, updates) =>
    let lastModification : Nat :=
      if updates = 0 then
        (verifications.head?.getD ⟨0, 0⟩).timestamp
      else
        timestamps.headD 0
    some (ratTrunc (((now : ℚ) - (lastModification : ℚ)) * alpha))

/-- Modelled from the spec's description of the adaptive strategy, for
comparison with the code: `lastModificationTime` is "the timestamp of
the most recent observation whose reply differs from the current one (or
the oldest observation's timestamp if all replies are identical)". -/
def lastModificationSpec (verifications : List verification) : Option Nat :=
  match verifications.getLast? with
  | none => none
  | some lastVerification =>
    match verifications.reverse.find?
        (fun v => ! EqualVerifications v lastVerification) with
    | some w => some w.timestamp
    | none => verifications.head?.map (·.timestamp)

/-- A pluggable estimation strategy, as seen by the verifier
(interface `estimationStrategy`, src/unnamed/part_004 lines 9-13): the
verifier passes its interval, verification and estimation histories and
the 95th-percentile response time.  `σ` is the strategy's private
mutable state (`dynamicTBG1Strategy` carries one; the others are
stateless).  The outer `Option` is `none` when the Go implementation
would panic (index into an empty slice); the `Except` layer is the Go
`error` return; on success the new private state is returned alongside
the duration. -/
structure Strategy (σ : Type) where
  determineEstimation : σ → List interval → List verification → List estimation →
    ℚ → Option (Except Unit (Int × σ))
  determineInterval : σ → List interval → List verification → List estimation →
    Option (Except Unit (Int × σ))

/-- The state owned by one verifier (struct `verifier`,
src/server/verifier.go lines 16-34), restricted to the fields the
estimation engine reads and writes.  `responseTimes` is the fixed
256-slot ring buffer of response times in nanoseconds (stored as
float64 in Go, hence `ℚ`). -/
structure VerifierState (σ : Type) where
  expiration : Nat
  strategyState : σ
  intervals : List interval
  verifications : List verification
  estimations : List estimation
  responseTimes : List ℚ
  responseTimeCounter : Nat
  responseTimesFilled : Bool

/-- finished (src/server/verifier.go lines 163-165): the verifier has
completed its work when the current instant is after its expiration. -/
def finished (s : VerifierState σ) (now : Nat) : Bool :=
  s.expiration < now

/-- recordResponseTime (src/server/verifier.go lines 224-235): advance
the ring-buffer counter, wrap it to zero (marking the ring as filled)
when it reaches the buffer length, and store the response time at the
new counter position. -/
def recordResponseTime (s : VerifierState σ) (responseTime : Int) :
    VerifierState σ :=
  let counter := s.responseTimeCounter + 1
  if s.responseTimes.length ≤ counter then
    { s with responseTimesFilled := true
             responseTimeCounter := 0
             responseTimes := s.responseTimes.set 0 (responseTime : ℚ) }
  else
    { s with responseTimeCounter := counter
             responseTimes := s.responseTimes.set counter (responseTime : ℚ) }

/-- The slice of response times that percentileResponseTime hands to the
statistics library (src/server/verifier.go lines 238-244): the whole
ring once it has wrapped, otherwise only `responseTimes[0:counter]`. -/
def recordedResponseTimes (s : VerifierState σ) : List ℚ :=
  if s.responseTimesFilled then s.responseTimes
  else s.responseTimes.take s.responseTimeCounter

/-- Modelled from the external library `stats.Percentile`
(montanaflynn/stats): it reports an error on empty input and otherwise
returns an order statistic of the sorted input.  No property below
depends on the numeric value, so the order statistic is represented by
the maximum element. -/
def statsPercentile (input : List ℚ) (_percent : ℚ) : Except Unit ℚ :=
  match input with
  | [] => .error ()
  | x :: xs => .ok (xs.foldl max x)

/-- percentileResponseTime (src/server/verifier.go lines 237-252):
delegate to the statistics library over the recorded slice, propagating
its error. -/
def percentileResponseTime (s : VerifierState σ) (percentile : ℚ) :
    Except Unit ℚ :=
  statsPercentile (recordedResponseTimes s) percentile

/-- The strategy consultation step of updateEstimations
(src/server/verifier.go lines 207-211): ask the strategy for a new
validity estimate; on error, leave the estimation history unchanged; on
success append the new estimation.  `none` models a panic inside the
strategy. -/
def applyEstimation (strat : Strategy σ) (s : VerifierState σ)
    (now : Nat) (percentile : ℚ) : Option (VerifierState σ) :=
  match strat.determineEstimation s.strategyState s.intervals
      s.verifications s.estimations percentile with
  | none => none
  | some (.error _) => some s
  | some (.ok (validity, st)) =>
    some { s with strategyState := st
                  estimations := s.estimations ++ [⟨validity, now⟩] }

/-- updateEstimations (src/server/verifier.go lines 200-215): compute
the 95th-percentile response time and ask the strategy for a new
validity estimate; on either error, return leaving the estimation
history unchanged; on success append the new estimation.  `none` models
a panic inside the strategy. -/
def updateEstimations (strat : Strategy σ) (s : VerifierState σ)
    (now : Nat) : Option (VerifierState σ) :=
  match percentileResponseTime s (95 / 100) with
  | .error _ => some s
  | .ok percentile => applyEstimation strat s now percentile

/-- updateIntervals (src/server/verifier.go lines 188-198): ask the
strategy for a new sampling interval; on error leave the interval
history unchanged; on success append the new interval.  `none` models a
panic inside the strategy. -/
def updateIntervals (strat : Strategy σ) (s : VerifierState σ)
    (now : Nat) : Option (VerifierState σ) :=
  match strat.determineInterval s.strategyState s.intervals
      s.verifications s.estimations with
  | none => none
  | some (.error _) => some s
  | some (.ok (duration, st)) =>
    some { s with strategyState := st
                  intervals := s.intervals ++ [⟨duration, now⟩] }

/-- Line 141 of src/server/verifier.go: append the cloned reply with the
current timestamp to the verification history. -/
def addVerification (s : VerifierState σ) (reply : Nat) (now : Nat) :
    VerifierState σ :=
  { s with verifications := s.verifications ++ [⟨reply, now⟩] }

/-- The interval step that concludes a non-rejected update
(src/server/verifier.go lines 149-159): refresh the intervals (an error
is only logged) and report success.  The boolean is `true` exactly when
the Go update function returns a non-nil error; `none` models a panic. -/
def finishUpdate (strat : Strategy σ) (s3 : VerifierState σ) (now : Nat) :
    Option (VerifierState σ × Bool) :=
  match updateIntervals strat s3 now with
  | none => none
  | some s4 => some (s4, false)

/-- update (src/server/verifier.go lines 131-160): reject the update
with an error when the verifier is finished (no state change); otherwise
record the response time, append the new observation, refresh the
estimations and then the intervals (via finishUpdate above), and report
success. -/
def update (strat : Strategy σ) (s : VerifierState σ) (reply : Nat)
    (responseTime : Int) (now : Nat) :
    Option (VerifierState σ × Bool) :=
  if finished s now then
    some (s, true)
  else
    match updateEstimations strat
        (addVerification (recordResponseTime s responseTime) reply now) now with
    | none => none
    | some s3 => finishUpdate strat s3 now

/-- The fresh verifier record built by newVerifier
(src/server/verifier.go lines 62-81) before the seed update: empty
histories and a zeroed 256-slot response-time ring. -/
def newVerifierState (strategyState : σ) (expiration : Nat) :
    VerifierState σ :=
  { expiration := expiration
    strategyState := strategyState
    intervals := []
    verifications := []
    estimations := []
    responseTimes := List.replicate 256 0
    responseTimeCounter := 0
    responseTimesFilled := false }

/-- newVerifier (src/server/verifier.go lines 54-92): build the fresh
state and seed it with the initial reply via `update(resp, -1)` at the
creation instant; the boolean is `true` when that update failed, in
which case newVerifier returns an error and discards the verifier. -/
def newVerifier (strat : Strategy σ) (strategyState : σ)
    (expiration : Nat) (resp : Nat) (creation : Nat) :
    Option (VerifierState σ × Bool) :=
  update strat (newVerifierState strategyState expiration) resp (-1) creation

/-- estimate (src/server/verifier.go lines 217-222): the most recent
estimation's validity, or zero when none exists. -/
def estimateVal (s : VerifierState σ) : Int :=
  match s.estimations.getLast? with
  | none => 0
  | some e => e.validity

/-- Repeated calls to update on one verifier, in order.  Each
observation is a (reply, responseTime, now) triple.  A rejected update
(verifier finished) leaves the state unchanged, exactly as the Go
object is left untouched; a panic (`none`) propagates. -/
def runUpdates (strat : Strategy σ) :
    VerifierState σ → List (Nat × Int × Nat) → Option (VerifierState σ)
  | s, [] => some s
  | s, (reply, rt, now) :: rest =>
    match update strat s reply rt now with
    | none => none
    | some (s', _) => runUpdates strat s' rest

/-- Private state of a strategy installable by initializeStrategy
(src/server/interceptor.go lines 393-415): simplisticStrategy is
stateless, dynamicTBG1Strategy carries its own record. -/
inductive StratState
  | simp : StratState
  | tbg1 : dynamicTBG1Strategy → StratState
  deriving Repr, DecidableEq

/-- The two strategies installable by initializeStrategy
(src/server/interceptor.go lines 393-415), dispatching to the
per-strategy functions above.  simplisticStrategy never errors;
dynamicTBG1Strategy's determineInterval errors until an estimate
exists. -/
def installedStrategy : Strategy StratState where
  determineEstimation := fun st _ verifs _ _ =>
    match st with
    | .simp =>
      (simplisticDetermineEstimation verifs).map (fun e => .ok (e, .simp))
    | .tbg1 t =>
      (tbg1DetermineEstimation t verifs).map (fun r => .ok (r.1, .tbg1 r.2))
  determineInterval := fun st _ _ ests =>
    match st with
    | .simp => some (.ok (simplisticDetermineInterval, .simp))
    | .tbg1 t =>
      match tbg1DetermineInterval ests with
      | .ok d => some (.ok (d, .tbg1 t))
      | .error e => some (.error e)

/-- nilStrategy (src/server/nilstrategy.go): both operations return an
error unconditionally. -/
def nilStrategy : Strategy Unit where
  determineEstimation := fun _ _ _ _ _ => some (.error ())
  determineInterval := fun _ _ _ _ => some (.error ())

/-- The cache-control header value the server interceptor attaches
(src/server/interceptor.go line 312):
`fmt.Sprintf` of "must-revalidate, max-age=%d" with the whole-second
max-age. -/
def cacheControlHeader (n : Int) : String :=
  "must-revalidate, max-age=" ++ toString n

/-- Outcome of one intercepted unary server call: the response and error
handed back to gRPC and the cache-control header value, if one was set. -/
structure InterceptorResult where
  resp : Nat
  err : Option String
  header : Option String
  deriving Repr, DecidableEq

/-- UnaryServerInterceptor (src/server/interceptor.go lines 299-319):
call the handler; on handler error return its response and error
unchanged with no header; on success ask the estimator for a max-age
and, when that produced no error and `maxAge.Seconds() > 0` (the
duration is a positive number of nanoseconds), set the cache-control
header with `int(maxAge.Seconds())` whole seconds; always return the
handler's response, with a nil error.  The handler outcome and the
estimator outcome (`estimateMaxAge`'s duration-or-error) are inputs. -/
def unaryServerInterceptor (handlerResp : Nat) (handlerErr : Option String)
    (estimate : Except Unit Int) : InterceptorResult :=
  match handlerErr with
  | some e => ⟨handlerResp, some e, none⟩
  | none =>
    match estimate with
    | .ok maxAge =>
      if 0 < maxAge then
        ⟨handlerResp, none, some (cacheControlHeader (Int.tdiv maxAge nanosPerSecond))⟩
      else ⟨handlerResp, none, none⟩
    | .error _ => ⟨handlerResp, none, none⟩

/-- The fingerprint under which a verifier is registered: the code hashes
`{method, request.String()}` with hashcode.Strings; the pair itself is
used here (the hash is deterministic, and collisions are out of scope as
in the spec's fingerprint section). -/
abbrev Fingerprint : Type := String × Nat

/-- One item of the go-cache map that backs the verifier registry:
fingerprint, verifier state, and the go-cache item expiration in
nanoseconds (`0` meaning no expiration). -/
structure RegistryEntry where
  fp : Fingerprint
  state : VerifierState StratState
  itemExpiration : Nat

/-- The verifier registry (the `verifiers *cache.Cache` field of
ConfigurableValidityEstimator). -/
abbrev Registry : Type := List RegistryEntry

/-- Expiry test of go-cache v2.1.0: an item is expired when it has an
expiration (`> 0`) that lies strictly in the past. -/
def entryExpired (e : RegistryEntry) (now : Nat) : Bool :=
  0 < e.itemExpiration ∧ e.itemExpiration < now

/-- go-cache `Get`: the stored value, unless absent or expired. -/
def cacheGet (reg : Registry) (k : Fingerprint) (now : Nat) :
    Option (VerifierState StratState) :=
  match reg.find? (fun e => e.fp = k) with
  | none => none
  | some e => if entryExpired e now then none else some e.state

/-- go-cache `GetWithExpiration`: like `Get` but also yields the item
expiration (`0` models the zero `time.Time` of non-expiring items). -/
def cacheGetWithExpiration (reg : Registry) (k : Fingerprint) (now : Nat) :
    Option (VerifierState StratState × Nat) :=
  match reg.find? (fun e => e.fp = k) with
  | none => none
  | some e => if entryExpired e now then none else some (e.state, e.itemExpiration)

/-- go-cache `set`: store under the key, replacing any previous item.
A zero duration means the cache's default expiration, which the
registry configures as MaximumCacheValidity seconds
(src/server/interceptor.go line 249). -/
def cacheSet (reg : Registry) (k : Fingerprint) (v : VerifierState StratState)
    (d : Int) (now : Nat) : Registry :=
  let exp : Nat := if d = 0 then now + MaximumCacheValidity * 1000000000
    else if 0 < d then now + d.toNat else 0
  ⟨k, v, exp⟩ :: reg.filter (fun e => ¬ e.fp = k)

/-- go-cache `Add`: an error (second component `true`) when an
un-expired item already exists under the key, in which case the map is
untouched; otherwise store the item. -/
def cacheAdd (reg : Registry) (k : Fingerprint) (v : VerifierState StratState)
    (d : Int) (now : Nat) : Registry × Bool :=
  match cacheGet reg k now with
  | some _ => (reg, true)
  | none => (cacheSet reg k v d now, false)

/-- verificationNeeded (src/server/interceptor.go lines 321-347): a
method matching the PROXY_CACHE_BLACKLIST expression needs no verifier;
otherwise a verifier is needed — with lifetime MaximumCacheValidity
seconds — unless a registry item exists that has not yet expired.  The
compiled blacklist is a predicate on the method (a regexp-match error
counts as not blacklisted, folded into the predicate). -/
def verificationNeeded (blacklisted : String → Bool) (reg : Registry)
    (method : String) (req : Nat) (now : Nat) : Bool × Int :=
  if blacklisted method then (false, -1)
  else
    match cacheGetWithExpiration reg (method, req) now with
    | some (_, exp) =>
      if exp = 0 ∨ now < exp then (false, -1)
      else (true, MaximumCacheValidity)
    | none => (true, MaximumCacheValidity)

/-- Lines 380-384 of src/server/interceptor.go: store the freshly
created verifier with `verifiers.Add(hash, verifier, 0)` and propagate
the error when Add fails. -/
def storeVerifier (reg : Registry) (k : Fingerprint)
    (v : VerifierState StratState) (now : Nat) : Registry × Bool :=
  cacheAdd reg k v 0 now

/-- UnaryClientInterceptor (src/server/interceptor.go lines 359-391)
after a successful upstream invocation: when verification is needed,
create a verifier expiring `expiration` seconds from now — seeded with
the observed reply — and store it in the registry, propagating a
creation or Add failure (second component `true`).  The installed
strategy's initial private state is a parameter (initializeStrategy
reads it from the environment).  `none` models a panic inside the
verifier machinery. -/
def clientInterceptorStore (blacklisted : String → Bool)
    (stratInit : StratState) (reg : Registry) (method : String)
    (req reply : Nat) (now : Nat) : Option (Registry × Bool) :=
  match verificationNeeded blacklisted reg method req now with
  | (false, _) => some (reg, false)
  | (true, expiration) =>
    match newVerifier installedStrategy stratInit
        (now + expiration.toNat * 1000000000) reply now with
    | none => none
    | some (_, true) => some (reg, true)
    | some (v, false) => some (storeVerifier reg (method, req) v now)

/-- The per-verifier core of estimateMaxAge (src/server/interceptor.go
lines 270-288), for a verifier found in the registry: feed it the new
response via update — a failed update is returned as an error with
sentinel `-1` — and otherwise report the verifier's current estimate.
Returns the updated verifier state alongside the result; `none` models a
panic. -/
def estimateMaxAgeFound (strat : Strategy σ) (v : VerifierState σ)
    (resp : Nat) (responseTime : Int) (now : Nat) :
    Option (Except Unit Int × VerifierState σ) :=
  match update strat v resp responseTime now with
  | none => none
  | some (v', true) => some (.error (), v')
  | some (v', false) => some (.ok (estimateVal v'), v')

/-- estimateMaxAge (src/server/interceptor.go lines 264-294): look the
fingerprint up in the registry; when absent, report zero (no caching);
when present, feed the verifier the new response — an update failure is
returned as an error with sentinel `-1` — and otherwise report the
verifier's current estimate.  The verifier is mutated in place, so the
registry value is replaced accordingly.  `none` models a panic. -/
def estimateMaxAgeOp (reg : Registry) (method : String) (req resp : Nat)
    (responseTime : Int) (now : Nat) :
    Option (Except Unit Int × Registry) :=
  match cacheGet reg (method, req) now with
  | none => some (.ok 0, reg)
  | some v =>
    match update installedStrategy v resp responseTime now with
    | none => none
    | some (_, true) => some (.error (), reg)
    | some (v', false) =>
      some (.ok (estimateVal v'),
        reg.map (fun e => if e.fp = (method, req) then { e with state := v' } else e))

/-- One interception event seen by the estimator: a successful upstream
call through the client interceptor, or a successful handler call
through the server interceptor. -/
inductive Op
  | clientCall (method : String) (req reply : Nat) (now : Nat)
  | serverCall (method : String) (req resp : Nat) (responseTime : Int) (now : Nat)

/-- Effect of one event on the registry. -/
def stepSystem (blacklisted : String → Bool) (stratInit : StratState)
    (reg : Registry) : Op → Option Registry
  | .clientCall method req reply now =>
    (clientInterceptorStore blacklisted stratInit reg method req reply now).map (·.1)
  | .serverCall method req resp rt now =>
    (estimateMaxAgeOp reg method req resp rt now).map (·.2)

/-- The registry after a sequence of interception events, starting from
the given registry. -/
def runSystem (blacklisted : String → Bool) (stratInit : StratState) :
    Registry → List Op → Option Registry
  | reg, [] => some reg
  | reg, op :: rest =>
    match stepSystem blacklisted stratInit reg op with
    | none => none
    | some reg' => runSystem blacklisted stratInit reg' rest

/-- Invariant on the private state of an installable strategy during a
verifier run whose accepted observation timestamps lie in
`[lo, expiration]` and are all at most `cap`: a tbg1 state only holds
nondecreasing delta timestamps from that window. -/
def stratInv (lo cap expiration : Nat) : StratState → Prop
  | .simp => True
  | .tbg1 t => t.deltaTimestamps.Pairwise (· ≤ ·) ∧
      ∀ d ∈ t.deltaTimestamps, lo ≤ d ∧ d ≤ expiration ∧ d ≤ cap

/-- Run invariant of a verifier driven by an installable strategy: the
expiration lies within MaximumCacheValidity seconds of the base instant
`lo` (the client interceptor sets expiration = now + MaximumCacheValidity
seconds at creation), all recorded observation timestamps lie in
`[lo, expiration]` and at or before the latest accepted instant `cap`,
the timestamps are nondecreasing, every recorded estimation is
non-negative and at most MaximumCacheValidity seconds, and the strategy
state satisfies its own invariant. -/
def VerifierInv (lo cap : Nat) (s : VerifierState StratState) : Prop :=
  s.expiration ≤ lo + MaximumCacheValidity * 1000000000 ∧
  (∀ v ∈ s.verifications,
    lo ≤ v.timestamp ∧ v.timestamp ≤ s.expiration ∧ v.timestamp ≤ cap) ∧
  (s.verifications.map verification.timestamp).Pairwise (· ≤ ·) ∧
  (∀ e ∈ s.estimations, 0 ≤ e.validity ∧
    e.validity ≤ (MaximumCacheValidity : Int) * nanosPerSecond) ∧
  stratInv lo cap s.expiration s.strategyState

/-- A concrete verifier state holding one observation and one prior
five-second estimate, used to exercise the strategy-error path. -/
def errorCaseState : VerifierState Unit :=
  { expiration := 1000000000000
    strategyState := ()
    intervals := []
    verifications := [⟨42, 0⟩]
    estimations := [⟨5000000000, 0⟩]
    responseTimes := List.replicate 256 0
    responseTimeCounter := 1
    responseTimesFilled := false }

/-- A concrete registry holding one never-expiring entry, used to
exercise the insert-collision path. -/
def collisionReg : Registry :=
  [⟨("m", 1), newVerifierState .simp 0, 0⟩]

/-- The concrete verifier produced by seeding a fresh simplistic-strategy
verifier with reply 7 at instant 1s (expiration 46s). -/
def c1s0 : VerifierState StratState :=
  { expiration := 46000000000
    strategyState := .simp
    intervals := [⟨5000000000, 1000000000⟩]
    verifications := [⟨7, 1000000000⟩]
    estimations := [⟨0, 1000000000⟩]
    responseTimes := (List.replicate 256 (0 : ℚ)).set 1 ((-1 : Int) : ℚ)
    responseTimeCounter := 1
    responseTimesFilled := false }

/-- The verifier above after one further update with reply 7 at
instant 2s. -/
def c1sFinal : VerifierState StratState :=
  { expiration := 46000000000
    strategyState := .simp
    intervals := [⟨5000000000, 1000000000⟩, ⟨5000000000, 2000000000⟩]
    verifications := [⟨7, 1000000000⟩, ⟨7, 2000000000⟩]
    estimations := [⟨0, 1000000000⟩, ⟨0, 2000000000⟩]
    responseTimes :=
      ((List.replicate 256 (0 : ℚ)).set 1 ((-1 : Int) : ℚ)).set 2 ((5 : Int) : ℚ)
    responseTimeCounter := 2
    responseTimesFilled := false }

/-! ## Theorems -/

/-- C2: for every verifier whose expiration instant has passed, calling
update(reply, responseTime) leaves the verification, estimation and
interval histories unchanged — the resulting state is the input state —
and reports failure to the caller. -/
theorem update_after_expiration_rejected (strat : Strategy σ)
    (s : VerifierState σ) (reply : Nat) (responseTime : Int) (now : Nat)
    (h : s.expiration < now) :
    update strat s reply responseTime now = some (s, true) := by
  unfold update finished
  simp [h]

/-- Witness for C2 at a concrete expired verifier. -/
theorem update_after_expiration_rejected_witness :
    update nilStrategy (newVerifierState () 10) 5 7 11 =
      some (newVerifierState () 10, true) :=
  update_after_expiration_rejected nilStrategy (newVerifierState () 10) 5 7 11
    (by decide)

/-- C4: the server-side unary interceptor returns the handler's error
unchanged (and nil on success), always returns the handler's original
response, and sets the cache-control header `must-revalidate, max-age=N`
exactly when the estimation produced no error and a positive duration,
with `N` that duration in whole seconds. -/
theorem unaryServerInterceptor_spec (resp : Nat) (herr : Option String)
    (est : Except Unit Int) :
    (unaryServerInterceptor resp herr est).resp = resp ∧
    (unaryServerInterceptor resp herr est).err = herr ∧
    ((unaryServerInterceptor resp herr est).header.isSome ↔
      herr = none ∧ ∃ maxAge, est = .ok maxAge ∧ 0 < maxAge) ∧
    (∀ maxAge, herr = none → est = .ok maxAge → 0 < maxAge →
      (unaryServerInterceptor resp herr est).header =
        some (cacheControlHeader (Int.tdiv maxAge nanosPerSecond))) := by
  rcases herr with _ | e
  · rcases est with e | maxAge
    · have hrw : unaryServerInterceptor resp none (.error e) =
          ⟨resp, none, none⟩ := rfl
      rw [hrw]
      refine ⟨rfl, rfl, ?_, ?_⟩
      · simp only [Option.isSome_none, Bool.false_eq_true, false_iff, not_and]
        rintro - ⟨m, hm, -⟩
        cases hm
      · intro m _ hm
        cases hm
    · by_cases h : 0 < maxAge
      · have hrw : unaryServerInterceptor resp none (.ok maxAge) =
            ⟨resp, none,
              some (cacheControlHeader (Int.tdiv maxAge nanosPerSecond))⟩ := by
          unfold unaryServerInterceptor
          simp [h]
        rw [hrw]
        refine ⟨rfl, rfl, ?_, ?_⟩
        · simp only [Option.isSome_some, true_iff]
          exact ⟨by trivial, maxAge, rfl, h⟩
        · intro m _ hm _
          cases hm
          rfl
      · have hrw : unaryServerInterceptor resp none (.ok maxAge) =
            ⟨resp, none, none⟩ := by
          unfold unaryServerInterceptor
          simp [h]
        rw [hrw]
        refine ⟨rfl, rfl, ?_, ?_⟩
        · simp only [Option.isSome_none, Bool.false_eq_true, false_iff, not_and]
          rintro - ⟨m, hm, hpos⟩
          cases hm
          exact h hpos
        · intro m _ hm hpos
          cases hm
          exact absurd hpos h
  · have hrw : unaryServerInterceptor resp (some e) est =
        ⟨resp, some e, none⟩ := rfl
    rw [hrw]
    refine ⟨rfl, rfl, ?_, ?_⟩
    · simp only [Option.isSome_none, Bool.false_eq_true, false_iff, not_and]
      rintro h
      cases h
    · intro m h
      cases h

/-- Witness for C4 at a successful handler call with a three-second
estimate. -/
theorem unaryServerInterceptor_spec_witness :
    (unaryServerInterceptor 7 none (.ok 3000000000)).header =
      some (cacheControlHeader (Int.tdiv 3000000000 nanosPerSecond)) :=
  (unaryServerInterceptor_spec 7 none (.ok 3000000000)).2.2.2 3000000000 rfl rfl
    (by decide)

/-- Invariant of the BackwardsUpdateDistance loop: scanning a history
whose timestamps strictly decrease (it runs newest to oldest), with an
accumulator of already-recorded timestamps that are strictly decreasing,
larger than everything still to be scanned, of length `updates ≤ K` and
bounded by `B` (as are the timestamps still to be scanned), the loop
yields recorded timestamps that are strictly decreasing, count-matched,
capped at `K`, and bounded by `B`. -/
theorem budLoop_invariant (K : Nat) (rev : List verification) :
    ∀ (v : verification) (updates : Nat) (acc : List Nat) (B : Nat),
    (rev.map verification.timestamp).Pairwise (· > ·) →
    (∀ a ∈ acc, ∀ c ∈ rev, c.timestamp < a) →
    acc.Pairwise (· > ·) →
    acc.length = updates →
    updates ≤ K →
    (∀ a ∈ acc, a ≤ B) →
    (∀ c ∈ rev, c.timestamp ≤ B) →
    (budLoop K v rev updates acc).1.length = (budLoop K v rev updates acc).2 ∧
    (budLoop K v rev updates acc).2 ≤ K ∧
    (budLoop K v rev updates acc).1.Pairwise (· > ·) ∧
    (∀ a ∈ (budLoop K v rev updates acc).1, a ≤ B) := by
  induction rev with
  | nil =>
    intro v updates acc B _ _ h3 h4 h5 h6 _
    exact ⟨h4, h5, h3, h6⟩
  | cons current rest ih =>
    intro v updates acc B h1 h2 h3 h4 h5 h6 h7
    rw [List.map_cons, List.pairwise_cons] at h1
    obtain ⟨h1a, h1b⟩ := h1
    unfold budLoop
    by_cases hu : updates < K
    · rw [if_pos hu]
      by_cases he : EqualVerifications v current
      · rw [if_pos he]
        refine ih v updates acc B h1b ?_ h3 h4 h5 h6 ?_
        · exact fun a ha c hc => h2 a ha c (List.mem_cons_of_mem current hc)
        · exact fun c hc => h7 c (List.mem_cons_of_mem current hc)
      · rw [if_neg he]
        refine ih current (updates + 1) (acc ++ [current.timestamp]) B h1b ?_ ?_ ?_ hu ?_ ?_
        · intro a ha c hc
          rcases List.mem_append.mp ha with ha' | ha'
          · exact h2 a ha' c (List.mem_cons_of_mem current hc)
          · rw [List.mem_singleton.mp ha']
            exact h1a c.timestamp (List.mem_map_of_mem verification.timestamp hc)
        · refine List.pairwise_append.mpr ⟨h3, List.pairwise_singleton _ _, ?_⟩
          intro a ha b hb
          rw [List.mem_singleton.mp hb]
          exact h2 a ha current (List.mem_cons_self current rest)
        · rw [List.length_append, List.length_singleton, h4]
        · intro a ha
          rcases List.mem_append.mp ha with ha' | ha'
          · exact h6 a ha'
          · rw [List.mem_singleton.mp ha']
            exact h7 current (List.mem_cons_self current rest)
        · exact fun c hc => h7 c (List.mem_cons_of_mem current hc)
    · rw [if_neg hu]
      exact ⟨h4, h5, h3, h6⟩

/-- C3: for every non-empty verification history with strictly
increasing timestamps and every K ≥ 1, BackwardsUpdateDistance returns
`updates ≤ K` recorded timestamps (the first `updates` entries of the
returned K-slot array), each at most the latest observation's timestamp,
in strictly decreasing order. -/
theorem backwardsUpdateDistance_spec (verifs : List verification) (K : Nat)
    (hne : verifs ≠ []) (_hK : 1 ≤ K)
    (hmono : (verifs.map verification.timestamp).Pairwise (· < ·)) :
    ∃ ts updates, BackwardsUpdateDistance verifs K = some (ts, updates) ∧
      updates ≤ K ∧ ts.length = K ∧
      (∀ x ∈ ts.take updates, x ≤ (verifs.getLast hne).timestamp) ∧
      (ts.take updates).Pairwise (· > ·) := by
  have hlast : verifs.getLast? = some (verifs.getLast hne) :=
    List.getLast?_eq_getLast verifs hne
  have hrev : (verifs.reverse.map verification.timestamp).Pairwise (· > ·) := by
    rw [List.map_reverse]
    exact List.pairwise_reverse.mpr hmono
  have hrevB : ∀ c ∈ verifs.reverse, c.timestamp ≤ (verifs.getLast hne).timestamp := by
    have hhd : verifs.reverse.head? = some (verifs.getLast hne) := by
      rw [List.head?_reverse, hlast]
    cases hrv : verifs.reverse with
    | nil => rw [hrv] at hhd; cases hhd
    | cons r0 rest =>
      rw [hrv] at hhd
      have hr0 : r0 = verifs.getLast hne := by
        simpa using hhd
      rw [hrv] at hrev
      rw [List.map_cons, List.pairwise_cons] at hrev
      intro c hc
      rcases List.mem_cons.mp hc with hc' | hc'
      · rw [hc', hr0]
      · rw [← hr0]
        exact le_of_lt (hrev.1 c.timestamp (List.mem_map_of_mem verification.timestamp hc'))
  have hinv := budLoop_invariant K verifs.reverse (verifs.getLast hne) 0 []
    (verifs.getLast hne).timestamp hrev (by simp) (by simp) (by simp) (Nat.zero_le K)
    (by simp) hrevB
  obtain ⟨hlen, hK', hpair, hbound⟩ := hinv
  refine ⟨(budLoop K (verifs.getLast hne) verifs.reverse 0 []).1 ++
      List.replicate (K - (budLoop K (verifs.getLast hne) verifs.reverse 0 []).2) 0,
    (budLoop K (verifs.getLast hne) verifs.reverse 0 []).2, ?_, hK', ?_, ?_, ?_⟩
  · unfold BackwardsUpdateDistance
    rw [hlast]
  · rw [List.length_append, List.length_replicate, hlen]
    omega
  · intro x hx
    rw [← hlen, List.take_left] at hx
    exact hbound x hx
  · rw [← hlen, List.take_left]
    exact hpair

/-- Witness for C3 on a five-element history with two value changes. -/
theorem backwardsUpdateDistance_spec_witness :
    ∃ ts updates,
      BackwardsUpdateDistance [⟨1, 10⟩, ⟨1, 20⟩, ⟨2, 30⟩, ⟨2, 40⟩, ⟨3, 50⟩] 2 =
        some (ts, updates) ∧
      updates ≤ 2 ∧ ts.length = 2 ∧
      (∀ x ∈ ts.take updates,
        x ≤ (([⟨1, 10⟩, ⟨1, 20⟩, ⟨2, 30⟩, ⟨2, 40⟩, ⟨3, 50⟩] :
          List verification).getLast (by decide)).timestamp) ∧
      (ts.take updates).Pairwise (· > ·) :=
  backwardsUpdateDistance_spec [⟨1, 10⟩, ⟨1, 20⟩, ⟨2, 30⟩, ⟨2, 40⟩, ⟨3, 50⟩] 2
    (by decide) (by decide) (by decide)

/-- Reply equality of verifications is symmetric. -/
theorem EqualVerifications_comm (a b : verification) :
    EqualVerifications a b = EqualVerifications b a := by
  unfold EqualVerifications
  by_cases h : a.reply = b.reply
  · simp [h]
  · have h2 : ¬ b.reply = a.reply := fun hh => h hh.symm
    simp [h, h2]

/-- Once the loop of BackwardsUpdateDistance has recorded its K-th
timestamp it stops immediately. -/
theorem budLoop_stop (K : Nat) (rev : List verification) (v : verification)
    (updates : Nat) (acc : List Nat) (h : ¬ updates < K) :
    budLoop K v rev updates acc = (acc, updates) := by
  cases rev with
  | nil => rfl
  | cons current rest =>
    unfold budLoop
    rw [if_neg h]

/-- With K = 1 the loop of BackwardsUpdateDistance records nothing when
every scanned reply equals the newest one. -/
theorem budLoop_K1_none :
    ∀ (rev : List verification) (v : verification),
    rev.find? (fun c => ! EqualVerifications v c) = none →
    budLoop 1 v rev 0 [] = ([], 0) := by
  intro rev
  induction rev with
  | nil => intro v _; rfl
  | cons current rest ih =>
    intro v hfind
    have hp : EqualVerifications v current = true := by
      by_contra h
      have hcur : (fun c => ! EqualVerifications v c) current = true := by
        simp [Bool.not_eq_true', Bool.not_eq_true] at h ⊢
        exact h
      rw [@List.find?_cons_of_pos _ (fun c => ! EqualVerifications v c)
        current rest hcur] at hfind
      cases hfind
    unfold budLoop
    rw [if_pos (by omega), if_pos hp]
    apply ih
    rw [@List.find?_cons_of_neg _ (fun c => ! EqualVerifications v c)
      current rest (by simp [hp])] at hfind
    exact hfind

/-- With K = 1 the loop of BackwardsUpdateDistance records exactly the
timestamp of the first scanned observation whose reply differs from the
newest one. -/
theorem budLoop_K1_some :
    ∀ (rev : List verification) (v w : verification),
    rev.find? (fun c => ! EqualVerifications v c) = some w →
    budLoop 1 v rev 0 [] = ([w.timestamp], 1) := by
  intro rev
  induction rev with
  | nil => intro v w h; cases h
  | cons current rest ih =>
    intro v w hfind
    by_cases hp : EqualVerifications v current = true
    · unfold budLoop
      rw [if_pos (by omega), if_pos hp]
      apply ih
      rw [@List.find?_cons_of_neg _ (fun c => ! EqualVerifications v c)
        current rest (by simp [hp])] at hfind
      exact hfind
    · have hcur : (fun c => ! EqualVerifications v c) current = true := by
        simp [Bool.not_eq_true', Bool.not_eq_true] at hp ⊢
        exact hp
      have hw : w = current := by
        rw [@List.find?_cons_of_pos _ (fun c => ! EqualVerifications v c)
          current rest hcur] at hfind
        exact (Option.some_inj.mp hfind).symm
      unfold budLoop
      rw [if_pos (by omega), if_neg hp]
      rw [budLoop_stop 1 rest current 1 _ (by omega), hw]
      rfl

/-- Closed form of BackwardsUpdateDistance on a non-empty history. -/
theorem BackwardsUpdateDistance_closed (verifs : List verification)
    (hne : verifs ≠ []) (K : Nat) :
    BackwardsUpdateDistance verifs K =
      some ((budLoop K (verifs.getLast hne) verifs.reverse 0 []).1 ++
          List.replicate (K - (budLoop K (verifs.getLast hne) verifs.reverse 0 []).2) 0,
        (budLoop K (verifs.getLast hne) verifs.reverse 0 []).2) := by
  unfold BackwardsUpdateDistance
  rw [List.getLast?_eq_getLast verifs hne]

/-- Closed form of the spec-side last-modification time on a non-empty
history. -/
theorem lastModificationSpec_closed (verifs : List verification)
    (hne : verifs ≠ []) :
    lastModificationSpec verifs =
      match verifs.reverse.find?
          (fun v => ! EqualVerifications v (verifs.getLast hne)) with
      | some w => some w.timestamp
      | none => verifs.head?.map (fun x => x.timestamp) := by
  unfold lastModificationSpec
  rw [List.getLast?_eq_getLast verifs hne]

/-- C7: under the adaptive-alpha strategy, determineEstimation returns
`alpha * (now - lastModificationTime)` (truncated to nanoseconds), where
lastModificationTime is the timestamp of the most recent observation
whose reply differs from the current one, or the oldest observation's
timestamp when all replies are identical; in the identical case the
estimate therefore spans `alpha * (now - oldest)`. -/
theorem adaptive_matches_spec (alpha : ℚ) (now : Nat)
    (verifs : List verification) (hne : verifs ≠ []) :
    ∃ l, lastModificationSpec verifs = some l ∧
      adaptiveDetermineEstimation alpha now verifs =
        some (ratTrunc (((now : ℚ) - (l : ℚ)) * alpha)) ∧
      ((∀ v ∈ verifs, v.reply = (verifs.getLast hne).reply) →
        l = (verifs.head hne).timestamp) := by
  have hpred : (fun c => ! EqualVerifications c (verifs.getLast hne)) =
      (fun c => ! EqualVerifications (verifs.getLast hne) c) := by
    funext c
    rw [EqualVerifications_comm]
  rcases hfind : verifs.reverse.find?
      (fun c => ! EqualVerifications (verifs.getLast hne) c) with _ | w
  · have hbud := budLoop_K1_none verifs.reverse (verifs.getLast hne) hfind
    have hhead : verifs.head? = some (verifs.head hne) := List.head?_eq_head hne
    have hB : BackwardsUpdateDistance verifs 1 = some ([0], 0) := by
      rw [BackwardsUpdateDistance_closed verifs hne 1, hbud]
      rfl
    have hspec : lastModificationSpec verifs =
        some (verifs.head hne).timestamp := by
      rw [lastModificationSpec_closed verifs hne, hpred, hfind, hhead]
      rfl
    have hA : adaptiveDetermineEstimation alpha now verifs =
        some (ratTrunc (((now : ℚ) - ((verifs.head hne).timestamp : ℚ)) * alpha)) := by
      unfold adaptiveDetermineEstimation
      rw [hB, hhead]
      rfl
    exact ⟨(verifs.head hne).timestamp, hspec, hA, fun _ => rfl⟩
  · have hbud := budLoop_K1_some verifs.reverse (verifs.getLast hne) w hfind
    have hB : BackwardsUpdateDistance verifs 1 = some ([w.timestamp], 1) := by
      rw [BackwardsUpdateDistance_closed verifs hne 1, hbud]
      rfl
    have hspec : lastModificationSpec verifs = some w.timestamp := by
      rw [lastModificationSpec_closed verifs hne, hpred, hfind]
    have hA : adaptiveDetermineEstimation alpha now verifs =
        some (ratTrunc (((now : ℚ) - (w.timestamp : ℚ)) * alpha)) := by
      unfold adaptiveDetermineEstimation
      rw [hB]
      rfl
    refine ⟨w.timestamp, hspec, hA, ?_⟩
    intro hall
    have hw : w ∈ verifs := List.mem_reverse.mp (List.mem_of_find?_eq_some hfind)
    have hp := List.find?_some hfind
    simp only [Bool.not_eq_true', EqualVerifications, beq_eq_false_iff_ne, ne_eq] at hp
    exact absurd ((hall w hw).symm) hp

/-- Witness for C7 on a three-element history whose reply changed once. -/
theorem adaptive_matches_spec_witness :
    ∃ l, lastModificationSpec
        [⟨1, 0⟩, ⟨2, 10000000000⟩, ⟨2, 15000000000⟩] = some l ∧
      adaptiveDetermineEstimation (1 / 2) 20000000000
          [⟨1, 0⟩, ⟨2, 10000000000⟩, ⟨2, 15000000000⟩] =
        some (ratTrunc (((20000000000 : ℚ) - (l : ℚ)) * (1 / 2))) ∧
      ((∀ v ∈ ([⟨1, 0⟩, ⟨2, 10000000000⟩, ⟨2, 15000000000⟩] :
          List verification), v.reply =
            (([⟨1, 0⟩, ⟨2, 10000000000⟩, ⟨2, 15000000000⟩] :
              List verification).getLast (by decide)).reply) →
        l = (([⟨1, 0⟩, ⟨2, 10000000000⟩, ⟨2, 15000000000⟩] :
          List verification).head (by decide)).timestamp) :=
  adaptive_matches_spec (1 / 2) 20000000000
    [⟨1, 0⟩, ⟨2, 10000000000⟩, ⟨2, 15000000000⟩] (by decide)

/-- C10: after a call to recordResponseTime on a state whose ring buffer
invariant holds (256 slots, counter in bounds), the counter is again a
valid index into the buffer, the buffer keeps its 256 slots, and while
the ring has not wrapped (responseTimesFilled is false) the percentile
input is exactly the slice `responseTimes[0:responseTimeCounter]`. -/
theorem recordResponseTime_invariant (s : VerifierState σ)
    (responseTime : Int) (hlen : s.responseTimes.length = 256)
    (_hctr : s.responseTimeCounter < 256) :
    (recordResponseTime s responseTime).responseTimeCounter <
      (recordResponseTime s responseTime).responseTimes.length ∧
    (recordResponseTime s responseTime).responseTimes.length = 256 ∧
    ((recordResponseTime s responseTime).responseTimesFilled = false →
      recordedResponseTimes (recordResponseTime s responseTime) =
        (recordResponseTime s responseTime).responseTimes.take
          (recordResponseTime s responseTime).responseTimeCounter) := by
  unfold recordResponseTime
  by_cases h : s.responseTimes.length ≤ s.responseTimeCounter + 1
  · rw [if_pos h]
    refine ⟨?_, ?_, ?_⟩
    · simpa using hlen ▸ Nat.zero_lt_succ 255
    · simpa using hlen
    · intro hfill
      exact absurd hfill (by simp)
  · rw [if_neg h]
    refine ⟨?_, ?_, ?_⟩
    · simpa using Nat.lt_of_not_le h
    · simpa using hlen
    · intro hfill
      unfold recordedResponseTimes
      simp only at hfill ⊢
      rw [if_neg (by simp [hfill])]

/-- Witness for C10 on the freshly constructed ring buffer. -/
theorem recordResponseTime_invariant_witness :
    (recordResponseTime (newVerifierState () 0) 5).responseTimeCounter <
      (recordResponseTime (newVerifierState () 0) 5).responseTimes.length :=
  (recordResponseTime_invariant (newVerifierState () 0) 5
    (by rw [show (newVerifierState () 0).responseTimes = List.replicate 256 0 from rfl,
          List.length_replicate])
    (by rw [show (newVerifierState () 0).responseTimeCounter = 0 from rfl]; omega)).1

/-- simplisticStrategy's estimation is defined on any non-empty
history. -/
theorem simplisticDetermineEstimation_ne_none (verifs : List verification)
    (h : verifs ≠ []) : simplisticDetermineEstimation verifs ≠ none := by
  unfold simplisticDetermineEstimation
  rw [List.getLast?_eq_getLast verifs h]
  intro hcon
  exact Option.noConfusion hcon

/-- dynamicTBG1Strategy's estimation is defined on any non-empty
history. -/
theorem tbg1DetermineEstimation_ne_none (t : dynamicTBG1Strategy)
    (verifs : List verification) (h : verifs ≠ []) :
    tbg1DetermineEstimation t verifs ≠ none := by
  unfold tbg1DetermineEstimation
  rw [List.getLast?_eq_getLast verifs h]
  intro hcon
  exact Option.noConfusion hcon

/-- Either installable strategy's estimation is defined on any non-empty
history. -/
theorem installed_estimation_ne_none (st : StratState)
    (ints : List interval) (verifs : List verification)
    (ests : List estimation) (p : ℚ) (h : verifs ≠ []) :
    installedStrategy.determineEstimation st ints verifs ests p ≠ none := by
  cases st with
  | simp =>
    have hrw : installedStrategy.determineEstimation .simp ints verifs ests p =
        (simplisticDetermineEstimation verifs).map (fun e => .ok (e, .simp)) := rfl
    rw [hrw, Ne, Option.map_eq_none']
    exact simplisticDetermineEstimation_ne_none verifs h
  | tbg1 t =>
    have hrw : installedStrategy.determineEstimation (.tbg1 t) ints verifs ests p =
        (tbg1DetermineEstimation t verifs).map (fun r => .ok (r.1, .tbg1 r.2)) := rfl
    rw [hrw, Ne, Option.map_eq_none']
    exact tbg1DetermineEstimation_ne_none t verifs h

/-- Either installable strategy's interval computation never panics. -/
theorem installed_interval_ne_none (st : StratState) (ints : List interval)
    (verifs : List verification) (ests : List estimation) :
    installedStrategy.determineInterval st ints verifs ests ≠ none := by
  cases st with
  | simp =>
    intro hcon
    exact Option.noConfusion hcon
  | tbg1 t =>
    have hrw : installedStrategy.determineInterval (.tbg1 t) ints verifs ests =
        (match tbg1DetermineInterval ests with
          | .ok d => some (.ok (d, .tbg1 t))
          | .error e => some (.error e)) := rfl
    rw [hrw]
    cases tbg1DetermineInterval ests <;> intro hcon <;> exact Option.noConfusion hcon

/-- updateEstimations never panics under an installable strategy when the
verification history is non-empty. -/
theorem updateEstimations_installed_ne_none (s : VerifierState StratState)
    (now : Nat) (h : s.verifications ≠ []) :
    updateEstimations installedStrategy s now ≠ none := by
  unfold updateEstimations
  rcases hp : percentileResponseTime s (95 / 100) with e | p
  · intro hcon
    exact Option.noConfusion hcon
  · show applyEstimation installedStrategy s now p ≠ none
    unfold applyEstimation
    rcases hd : installedStrategy.determineEstimation s.strategyState s.intervals
        s.verifications s.estimations p with _ | r
    · exact absurd hd (installed_estimation_ne_none _ _ _ _ _ h)
    · rcases r with e | ⟨validity, st⟩
      · intro hcon
        exact Option.noConfusion hcon
      · intro hcon
        exact Option.noConfusion hcon

/-- updateIntervals never panics under an installable strategy. -/
theorem updateIntervals_installed_ne_none (s : VerifierState StratState)
    (now : Nat) : updateIntervals installedStrategy s now ≠ none := by
  unfold updateIntervals
  rcases hd : installedStrategy.determineInterval s.strategyState s.intervals
      s.verifications s.estimations with _ | r
  · exact absurd hd (installed_interval_ne_none _ _ _ _)
  · rcases r with e | ⟨duration, st⟩
    · intro hcon
      exact Option.noConfusion hcon
    · intro hcon
      exact Option.noConfusion hcon

/-- update never panics under an installable strategy: the observation is
appended before the strategy runs, so its last-element indexing is
in bounds. -/
theorem update_installed_ne_none (s : VerifierState StratState) (reply : Nat)
    (rt : Int) (now : Nat) :
    update installedStrategy s reply rt now ≠ none := by
  unfold update
  by_cases hf : finished s now = true
  · rw [if_pos hf]
    intro hcon
    exact Option.noConfusion hcon
  · rw [if_neg hf]
    have h2 : (addVerification (recordResponseTime s rt) reply now).verifications ≠ [] := by
      show (recordResponseTime s rt).verifications ++ [⟨reply, now⟩] ≠ []
      simp
    rcases he : updateEstimations installedStrategy
        (addVerification (recordResponseTime s rt) reply now) now with _ | s3
    · exact absurd he (updateEstimations_installed_ne_none _ _ h2)
    · show finishUpdate installedStrategy s3 now ≠ none
      unfold finishUpdate
      rcases hi : updateIntervals installedStrategy s3 now with _ | s4
      · exact absurd hi (updateIntervals_installed_ne_none _ _)
      · intro hcon
        exact Option.noConfusion hcon

/-- recordResponseTime only touches the ring-buffer fields. -/
theorem recordResponseTime_fields (s : VerifierState σ) (rt : Int) :
    (recordResponseTime s rt).strategyState = s.strategyState ∧
    (recordResponseTime s rt).intervals = s.intervals ∧
    (recordResponseTime s rt).verifications = s.verifications ∧
    (recordResponseTime s rt).estimations = s.estimations ∧
    (recordResponseTime s rt).expiration = s.expiration := by
  unfold recordResponseTime
  by_cases h : s.responseTimes.length ≤ s.responseTimeCounter + 1
  · rw [if_pos h]
    exact ⟨rfl, rfl, rfl, rfl, rfl⟩
  · rw [if_neg h]
    exact ⟨rfl, rfl, rfl, rfl, rfl⟩

/-- updateEstimations only appends to the estimation history: the other
histories, the expiration and the ring-buffer fields are untouched. -/
theorem updateEstimations_fields (strat : Strategy σ) (s : VerifierState σ)
    (now : Nat) (s3 : VerifierState σ)
    (h : updateEstimations strat s now = some s3) :
    s3.verifications = s.verifications ∧ s3.intervals = s.intervals ∧
    s3.expiration = s.expiration := by
  unfold updateEstimations at h
  rcases hp : percentileResponseTime s (95 / 100) with _ | p
  · rw [hp] at h
    cases h
    exact ⟨rfl, rfl, rfl⟩
  · rw [hp] at h
    have h' : applyEstimation strat s now p = some s3 := h
    unfold applyEstimation at h'
    rcases hd : strat.determineEstimation s.strategyState s.intervals
        s.verifications s.estimations p with _ | r
    · rw [hd] at h'
      cases h'
    · rw [hd] at h'
      rcases r with e | ⟨validity, st⟩
      · cases h'
        exact ⟨rfl, rfl, rfl⟩
      · cases h'
        exact ⟨rfl, rfl, rfl⟩

/-- updateIntervals only appends to the interval history: the other
histories and the expiration are untouched. -/
theorem updateIntervals_fields (strat : Strategy σ) (s : VerifierState σ)
    (now : Nat) (s4 : VerifierState σ)
    (h : updateIntervals strat s now = some s4) :
    s4.verifications = s.verifications ∧ s4.estimations = s.estimations ∧
    s4.expiration = s.expiration := by
  unfold updateIntervals at h
  rcases hd : strat.determineInterval s.strategyState s.intervals
      s.verifications s.estimations with _ | r
  · rw [hd] at h
    cases h
  · rw [hd] at h
    rcases r with e | ⟨duration, st⟩
    · cases h
      exact ⟨rfl, rfl, rfl⟩
    · cases h
      exact ⟨rfl, rfl, rfl⟩

/-- A successful (not-finished) update reports no error, appends exactly
the new observation to the verification history and keeps the
expiration. -/
theorem update_success (strat : Strategy σ) (s : VerifierState σ)
    (reply : Nat) (rt : Int) (now : Nat) (hf : ¬ finished s now = true)
    (s' : VerifierState σ) (b : Bool)
    (h : update strat s reply rt now = some (s', b)) :
    b = false ∧ s'.verifications = s.verifications ++ [⟨reply, now⟩] ∧
    s'.expiration = s.expiration := by
  unfold update at h
  rw [if_neg hf] at h
  rcases he : updateEstimations strat
      (addVerification (recordResponseTime s rt) reply now) now with _ | s3
  · rw [he] at h
    cases h
  · rw [he] at h
    have h' : finishUpdate strat s3 now = some (s', b) := h
    unfold finishUpdate at h'
    rcases hi : updateIntervals strat s3 now with _ | s4
    · rw [hi] at h'
      cases h'
    · rw [hi] at h'
      cases h'
      obtain ⟨hev, _, hee⟩ := updateEstimations_fields strat _ now s3 he
      obtain ⟨hiv, _, hie⟩ := updateIntervals_fields strat s3 now _ hi
      refine ⟨rfl, ?_, ?_⟩
      · rw [hiv, hev]
        show (recordResponseTime s rt).verifications ++ [⟨reply, now⟩] =
          s.verifications ++ [⟨reply, now⟩]
        rw [(recordResponseTime_fields s rt).2.2.1]
      · rw [hie, hee]
        show (recordResponseTime s rt).expiration = s.expiration
        exact (recordResponseTime_fields s rt).2.2.2.2

/-- C9: strategy calls always see a non-empty verification history:
BackwardsUpdateDistance is defined on every non-empty history, update
never hits the empty-slice panic under an installable strategy (it
appends the observation before consulting the strategy), and newVerifier
seeds the history with the initial reply via update before the verifier
is published, succeeding whenever the expiration is not already past. -/
theorem strategy_calls_nonempty_history :
    (∀ (verifs : List verification) (K : Nat), verifs ≠ [] →
      (BackwardsUpdateDistance verifs K).isSome = true) ∧
    (∀ (s : VerifierState StratState) (reply : Nat) (rt : Int) (now : Nat),
      update installedStrategy s reply rt now ≠ none) ∧
    (∀ (st : StratState) (expiration resp creation : Nat),
      creation ≤ expiration →
      ∃ s, newVerifier installedStrategy st expiration resp creation =
          some (s, false) ∧
        s.verifications = [⟨resp, creation⟩]) := by
  refine ⟨?_, ?_, ?_⟩
  · intro verifs K h
    rw [BackwardsUpdateDistance_closed verifs h K]
    rfl
  · exact update_installed_ne_none
  · intro st expiration resp creation hle
    have hf : ¬ finished (newVerifierState st expiration) creation = true := by
      unfold finished newVerifierState
      simp only [decide_eq_true_eq]
      omega
    have hne := update_installed_ne_none (newVerifierState st expiration)
      resp (-1) creation
    rcases hu : update installedStrategy (newVerifierState st expiration)
        resp (-1) creation with _ | ⟨s, b⟩
    · exact absurd hu hne
    · obtain ⟨hb, hv, _⟩ := update_success installedStrategy _ resp (-1)
        creation hf s b hu
      refine ⟨s, ?_, ?_⟩
      · unfold newVerifier
        rw [hu, hb]
      · rw [hv]
        rfl

/-- Witness for C9 at concrete histories and verifier states. -/
theorem strategy_calls_nonempty_history_witness :
    (BackwardsUpdateDistance [⟨1, 5⟩] 2).isSome = true ∧
    update installedStrategy (newVerifierState .simp 10) 3 (-1) 4 ≠ none ∧
    ∃ s, newVerifier installedStrategy .simp 10 3 4 = some (s, false) ∧
      s.verifications = [⟨3, 4⟩] :=
  ⟨strategy_calls_nonempty_history.1 [⟨1, 5⟩] 2 (by decide),
   strategy_calls_nonempty_history.2.1 (newVerifierState .simp 10) 3 (-1) 4,
   strategy_calls_nonempty_history.2.2 .simp 10 3 4 (by omega)⟩

set_option maxRecDepth 8000 in
/-- C5 counterexample: at a verifier whose strategy errors while
computing an estimate during update (nilStrategy, never successful) but
which holds a prior five-second estimate, the façade does not report
"no estimation available": it reports the retained five-second estimate,
and with that estimate the server interceptor sets the cache-control
header rather than omitting it. -/
theorem strategy_error_header_not_omitted :
    (estimateMaxAgeFound nilStrategy errorCaseState 42 5 1000).map Prod.fst =
      some (.ok 5000000000) ∧
    (unaryServerInterceptor 7 none (.ok 5000000000)).header =
      some (cacheControlHeader 5) :=
  ⟨rfl, rfl⟩

/-- C5 (amended): if the strategy returns an error while computing an
estimate during update (and its interval computation does not panic),
the estimation history is unchanged and the previous estimate is
retained; the façade then reports that previous estimate — not "no
estimation available" — so the cache-control header is omitted only when
the retained estimate is not positive. -/
theorem update_strategy_error_retains_estimate (strat : Strategy σ)
    (s : VerifierState σ) (reply : Nat) (rt : Int) (now : Nat)
    (hf : ¬ finished s now = true)
    (herr : ∀ p, strat.determineEstimation s.strategyState s.intervals
      (s.verifications ++ [⟨reply, now⟩]) s.estimations p = some (.error ()))
    (hint : strat.determineInterval s.strategyState s.intervals
      (s.verifications ++ [⟨reply, now⟩]) s.estimations ≠ none) :
    ∃ v', estimateMaxAgeFound strat s reply rt now =
        some (.ok (estimateVal s), v') ∧
      v'.estimations = s.estimations ∧
      (∀ r : Nat, (unaryServerInterceptor r none (.ok (estimateVal s))).header.isSome
        ↔ 0 < estimateVal s) := by
  have hrec := recordResponseTime_fields s rt
  have hst : (addVerification (recordResponseTime s rt) reply now).strategyState =
      s.strategyState := by
    show (recordResponseTime s rt).strategyState = s.strategyState
    exact hrec.1
  have hints : (addVerification (recordResponseTime s rt) reply now).intervals =
      s.intervals := by
    show (recordResponseTime s rt).intervals = s.intervals
    exact hrec.2.1
  have hver : (addVerification (recordResponseTime s rt) reply now).verifications =
      s.verifications ++ [⟨reply, now⟩] := by
    show (recordResponseTime s rt).verifications ++ [⟨reply, now⟩] =
      s.verifications ++ [⟨reply, now⟩]
    rw [hrec.2.2.1]
  have hests : (addVerification (recordResponseTime s rt) reply now).estimations =
      s.estimations := by
    show (recordResponseTime s rt).estimations = s.estimations
    exact hrec.2.2.2.1
  have hE : updateEstimations strat
      (addVerification (recordResponseTime s rt) reply now) now =
      some (addVerification (recordResponseTime s rt) reply now) := by
    unfold updateEstimations
    rcases hp : percentileResponseTime
        (addVerification (recordResponseTime s rt) reply now) (95 / 100) with e | p
    · rfl
    · show applyEstimation strat (addVerification (recordResponseTime s rt) reply now)
          now p = some (addVerification (recordResponseTime s rt) reply now)
      unfold applyEstimation
      rw [hst, hints, hver, hests, herr p]
  have hI : ∃ v', updateIntervals strat
      (addVerification (recordResponseTime s rt) reply now) now = some v' ∧
      v'.estimations = s.estimations := by
    unfold updateIntervals
    rw [hst, hints, hver, hests]
    rcases hd : strat.determineInterval s.strategyState s.intervals
        (s.verifications ++ [⟨reply, now⟩]) s.estimations with _ | r
    · exact absurd hd hint
    · rw [hd]
      rcases r with e | ⟨duration, st⟩
      · exact ⟨_, rfl, hests⟩
      · exact ⟨_, rfl, rfl⟩
  obtain ⟨v', hI1, hI2⟩ := hI
  have hEv : estimateVal v' = estimateVal s := by
    unfold estimateVal
    rw [hI2]
  refine ⟨v', ?_, hI2, ?_⟩
  · unfold estimateMaxAgeFound update
    rw [if_neg hf, hE]
    show (match finishUpdate strat (addVerification (recordResponseTime s rt) reply now) now with
          | none => (none : Option (Except Unit Int × VerifierState σ))
          | some (v', true) => some (Except.error (), v')
          | some (v', false) => some (Except.ok (estimateVal v'), v')) =
        some (Except.ok (estimateVal s), v')
    unfold finishUpdate
    rw [hI1]
    show some (Except.ok (estimateVal v'), v') = some (Except.ok (estimateVal s), v')
    rw [hEv]
  · intro r
    by_cases h0 : 0 < estimateVal s
    · simp [unaryServerInterceptor, h0]
    · simp [unaryServerInterceptor, h0]

/-- Witness for the amended C5 at nilStrategy and a concrete verifier
with a prior five-second estimate. -/
theorem update_strategy_error_retains_estimate_witness :
    ∃ v', estimateMaxAgeFound nilStrategy errorCaseState 42 5 1000 =
        some (.ok (estimateVal errorCaseState), v') ∧
      v'.estimations = errorCaseState.estimations ∧
      (∀ r : Nat,
        (unaryServerInterceptor r none (.ok (estimateVal errorCaseState))).header.isSome
          ↔ 0 < estimateVal errorCaseState) :=
  update_strategy_error_retains_estimate nilStrategy errorCaseState 42 5 1000
    (by decide) (fun _ => rfl) (fun hcon => Option.noConfusion hcon)

/-- C6 counterexample: storing a freshly created verifier under a
fingerprint that already has a live registry entry is reported as an
error by the registry Add — which the client interceptor propagates —
while the registry itself is left unchanged; the operation is not the
idempotent success the claim asserts. -/
theorem registry_insert_collision_errors :
    (storeVerifier collisionReg ("m", 1) (newVerifierState .simp 0) 5).2 = true ∧
    (storeVerifier collisionReg ("m", 1) (newVerifierState .simp 0) 5).1 =
      collisionReg :=
  ⟨rfl, rfl⟩

/-- C6 (amended): inserting a verifier under a fingerprint with a live
registry entry never replaces the existing entry — the registry is
returned unchanged — but it is an error: the Add fails and the client
interceptor propagates the failure (the second component, which
lines 380-384 return to the caller) instead of treating it as idempotent
success. -/
theorem registry_insert_collision_propagates (reg : Registry)
    (k : Fingerprint) (v : VerifierState StratState) (now : Nat)
    (h : (cacheGet reg k now).isSome = true) :
    storeVerifier reg k v now = (reg, true) := by
  unfold storeVerifier cacheAdd
  rcases hg : cacheGet reg k now with _ | x
  · rw [hg] at h
    cases h
  · rfl

/-- Witness for the amended C6 at a concrete one-entry registry. -/
theorem registry_insert_collision_propagates_witness :
    storeVerifier collisionReg ("m", 1) (newVerifierState .simp 0) 7 =
      (collisionReg, true) :=
  registry_insert_collision_propagates collisionReg ("m", 1)
    (newVerifierState .simp 0) 7 rfl

/-- verificationNeeded only reports a verifier as needed for methods the
blacklist does not match. -/
theorem verificationNeeded_true_not_blacklisted (blacklisted : String → Bool)
    (reg : Registry) (method : String) (req : Nat) (now : Nat) (x : Int)
    (h : verificationNeeded blacklisted reg method req now = (true, x)) :
    blacklisted method = false := by
  unfold verificationNeeded at h
  by_cases hb : blacklisted method = true
  · rw [if_pos hb] at h
    cases h
  · exact Bool.not_eq_true _ ▸ hb

/-- One interception event never puts a blacklisted method's fingerprint
into the registry. -/
theorem stepSystem_preserves_not_blacklisted (blacklisted : String → Bool)
    (stratInit : StratState) (reg reg' : Registry) (op : Op)
    (hstep : stepSystem blacklisted stratInit reg op = some reg')
    (hinv : ∀ e ∈ reg, blacklisted e.fp.1 = false) :
    ∀ e ∈ reg', blacklisted e.fp.1 = false := by
  cases op with
  | clientCall method req reply now =>
    unfold stepSystem at hstep
    rw [Option.map_eq_some'] at hstep
    obtain ⟨a, ha, haeq⟩ := hstep
    unfold clientInterceptorStore at ha
    rcases hvn : verificationNeeded blacklisted reg method req now with ⟨needed, expiration⟩
    rw [hvn] at ha
    cases needed with
    | false =>
      cases ha
      rw [← haeq]
      exact hinv
    | true =>
      have hbm : blacklisted method = false :=
        verificationNeeded_true_not_blacklisted blacklisted reg method req now
          expiration hvn
      have ha' : (match newVerifier installedStrategy stratInit
          (now + expiration.toNat * 1000000000) reply now with
        | none => (none : Option (Registry × Bool))
        | some (_, true) => some (reg, true)
        | some (v, false) => some (storeVerifier reg (method, req) v now)) =
          some a := ha
      rcases hnv : newVerifier installedStrategy stratInit
          (now + expiration.toNat * 1000000000) reply now with _ | vb
      · rw [hnv] at ha'
        cases ha'
      · rw [hnv] at ha'
        rcases vb with ⟨v, b⟩
        cases b with
        | true =>
          cases ha'
          rw [← haeq]
          exact hinv
        | false =>
          cases ha'
          rw [← haeq]
          unfold storeVerifier cacheAdd
          rcases hg : cacheGet reg (method, req) now with _ | x
          · show ∀ e ∈ cacheSet reg (method, req) v 0 now,
              blacklisted e.fp.1 = false
            unfold cacheSet
            intro e he
            rcases List.mem_cons.mp he with he' | he'
            · rw [he']
              exact hbm
            · exact hinv e (List.mem_of_mem_filter he')
          · exact hinv
  | serverCall method req resp rt now =>
    unfold stepSystem at hstep
    rw [Option.map_eq_some'] at hstep
    obtain ⟨a, ha, haeq⟩ := hstep
    unfold estimateMaxAgeOp at ha
    rcases hg : cacheGet reg (method, req) now with _ | v
    · rw [hg] at ha
      cases ha
      rw [← haeq]
      exact hinv
    · rw [hg] at ha
      have ha' : (match update installedStrategy v resp rt now with
        | none => (none : Option (Except Unit Int × Registry))
        | some (_, true) => some (Except.error (), reg)
        | some (v', false) =>
          some (Except.ok (estimateVal v'),
            reg.map (fun e =>
              if e.fp = (method, req) then { e with state := v' } else e))) =
          some a := ha
      rcases hu : update installedStrategy v resp rt now with _ | vb
      · rw [hu] at ha'
        cases ha'
      · rw [hu] at ha'
        rcases vb with ⟨v', b⟩
        cases b with
        | true =>
          cases ha'
          rw [← haeq]
          exact hinv
        | false =>
          cases ha'
          rw [← haeq]
          intro e he
          rw [List.mem_map] at he
          obtain ⟨e0, he0, heq⟩ := he
          have hfp : e.fp = e0.fp := by
            rw [← heq]
            by_cases hc : e0.fp = (method, req)
            · rw [if_pos hc]
            · rw [if_neg hc]
          rw [hfp]
          exact hinv e0 he0

/-- No sequence of interception events, starting from an empty registry,
ever registers a verifier under a blacklisted method. -/
theorem runSystem_not_blacklisted (blacklisted : String → Bool)
    (stratInit : StratState) :
    ∀ (ops : List Op) (reg0 reg : Registry),
    (∀ e ∈ reg0, blacklisted e.fp.1 = false) →
    runSystem blacklisted stratInit reg0 ops = some reg →
    ∀ e ∈ reg, blacklisted e.fp.1 = false := by
  intro ops
  induction ops with
  | nil =>
    intro reg0 reg h hrun
    cases hrun
    exact h
  | cons op rest ih =>
    intro reg0 reg h hrun
    unfold runSystem at hrun
    rcases hstep : stepSystem blacklisted stratInit reg0 op with _ | reg1
    · rw [hstep] at hrun
      cases hrun
    · rw [hstep] at hrun
      exact ih reg1 reg
        (stepSystem_preserves_not_blacklisted blacklisted stratInit reg0 reg1 op
          hstep h) hrun

/-- A registry with no blacklisted entries has no entry under a
blacklisted method's fingerprint, so the façade reports zero for it. -/
theorem estimateMaxAgeOp_blacklisted_zero (blacklisted : String → Bool)
    (reg : Registry) (hinv : ∀ e ∈ reg, blacklisted e.fp.1 = false)
    (method : String) (hb : blacklisted method = true) (req resp : Nat)
    (rt : Int) (now : Nat) :
    estimateMaxAgeOp reg method req resp rt now = some (.ok 0, reg) := by
  have hget : cacheGet reg (method, req) now = none := by
    unfold cacheGet
    rcases hf : reg.find? (fun x => x.fp = (method, req)) with _ | fe
    · rw [hf]
    · have he : fe ∈ reg := List.mem_of_find?_eq_some hf
      have hp : fe.fp = (method, req) := of_decide_eq_true
        (@List.find?_some _ (fun x => decide (x.fp = (method, req))) fe reg hf)
      have hfalse : blacklisted method = false := by
        have hm := hinv fe he
        rw [hp] at hm
        exact hm
      rw [hfalse] at hb
      cases hb
  unfold estimateMaxAgeOp
  rw [hget]

/-- C8: for every method the blacklist matches, no verifier is ever
created for it — starting from the empty registry, no sequence of
interception events produces a registry entry whose method is
blacklisted — and the façade returns 0 for it, so responses to
blacklisted methods are never assigned a cache TTL. -/
theorem blacklisted_methods_never_cached (blacklisted : String → Bool)
    (stratInit : StratState) (ops : List Op) (reg : Registry)
    (hrun : runSystem blacklisted stratInit [] ops = some reg)
    (method : String) (hb : blacklisted method = true) (req resp : Nat)
    (rt : Int) (now : Nat) :
    (∀ e ∈ reg, blacklisted e.fp.1 = false) ∧
    estimateMaxAgeOp reg method req resp rt now = some (.ok 0, reg) := by
  have hinv := runSystem_not_blacklisted blacklisted stratInit ops [] reg
    (by intro e he; cases he) hrun
  exact ⟨hinv, estimateMaxAgeOp_blacklisted_zero blacklisted reg hinv method hb
    req resp rt now⟩

/-- Witness for C8: one blacklisted client call leaves the registry
empty and the façade reports zero. -/
theorem blacklisted_methods_never_cached_witness :
    (∀ e ∈ ([] : Registry),
      (fun m => m == "/Secret/Read") e.fp.1 = false) ∧
    estimateMaxAgeOp [] "/Secret/Read" 1 2 3 4 = some (.ok 0, []) :=
  blacklisted_methods_never_cached (fun m => m == "/Secret/Read") .simp
    [Op.clientCall "/Secret/Read" 1 2 0] [] rfl "/Secret/Read" rfl 1 2 3 4

/-- In a history with nondecreasing timestamps, every observation is no
newer than the last one. -/
theorem timestamp_le_getLast :
    ∀ (verifs : List verification) (hne : verifs ≠ []),
    (verifs.map verification.timestamp).Pairwise (· ≤ ·) →
    ∀ v ∈ verifs, v.timestamp ≤ (verifs.getLast hne).timestamp := by
  intro verifs
  induction verifs with
  | nil => intro hne; exact absurd rfl hne
  | cons a l ih =>
    intro hne hmono v hv
    rw [List.map_cons] at hmono
    cases l with
    | nil =>
      rw [List.mem_singleton.mp hv]
      exact le_refl _
    | cons b l2 =>
      have hgl : (a :: b :: l2).getLast hne = (b :: l2).getLast (by simp) := rfl
      rcases List.mem_cons.mp hv with hv' | hv'
      · rw [hv', hgl]
        exact List.rel_of_pairwise_cons hmono
          (List.mem_map_of_mem verification.timestamp (List.getLast_mem (by simp)))
      · rw [hgl]
        exact ih (by simp) (List.pairwise_cons.mp hmono).2 v hv'

/-- The head of a nondecreasing list is at most its last element. -/
theorem head_le_getLast_of_pairwise :
    ∀ (l : List Nat) (hne : l ≠ []), l.Pairwise (· ≤ ·) →
    l.head hne ≤ l.getLast hne := by
  intro l
  induction l with
  | nil => intro hne; exact absurd rfl hne
  | cons a t _ =>
    intro hne hp
    cases t with
    | nil => exact le_refl a
    | cons b t2 =>
      exact List.rel_of_pairwise_cons hp (List.getLast_mem (by simp))

/-- The sum of consecutive differences telescopes to last minus first. -/
theorem consecDiffSum_eq :
    ∀ (l : List Nat) (a : Nat),
    consecDiffSum (a :: l) = ((a :: l).getLast (by simp) : Int) - (a : Int) := by
  intro l
  induction l with
  | nil =>
    intro a
    show (0 : Int) = (a : Int) - (a : Int)
    ring
  | cons b t ih =>
    intro a
    show ((b : Int) - (a : Int)) + consecDiffSum (b :: t) = _
    rw [ih b]
    have hgl : (a :: b :: t).getLast (by simp) = (b :: t).getLast (by simp) := rfl
    rw [hgl]
    ring

/-- Go's truncating division is monotone in a non-negative numerator. -/
theorem tdiv_le_tdiv_of_le (a c b : Int) (ha : 0 ≤ a) (hb : 0 < b)
    (h : a ≤ c) : a.tdiv b ≤ c.tdiv b := by
  rw [Int.tdiv_eq_ediv ha (le_of_lt hb),
    Int.tdiv_eq_ediv (le_trans ha h) (le_of_lt hb)]
  exact Int.ediv_le_ediv hb h

/-- Go float-to-int conversion of a non-negative value is non-negative. -/
theorem ratTrunc_nonneg (q : ℚ) (h : 0 ≤ q) : 0 ≤ ratTrunc q := by
  unfold ratTrunc
  rw [if_pos h]
  exact Int.le_floor.mpr (by exact_mod_cast h)

/-- Go float-to-int conversion respects an integer upper bound. -/
theorem ratTrunc_le_of_le (q : ℚ) (n : Int) (h0 : 0 ≤ q) (h : q ≤ (n : ℚ)) :
    ratTrunc q ≤ n := by
  unfold ratTrunc
  rw [if_pos h0]
  calc Int.floor q ≤ Int.floor ((n : ℚ)) := Int.floor_le_floor h
    _ = n := Int.floor_intCast n

/-- The strategy-state invariant is monotone in the latest-instant cap. -/
theorem stratInv_mono_cap (lo c c' e : Nat) (h : c ≤ c') (st : StratState)
    (hs : stratInv lo c e st) : stratInv lo c' e st := by
  cases st with
  | simp => trivial
  | tbg1 t =>
    obtain ⟨h1, h2⟩ := hs
    exact ⟨h1, fun d hd =>
      ⟨(h2 d hd).1, (h2 d hd).2.1, le_trans (h2 d hd).2.2 h⟩⟩

/-- The simplistic strategy's estimate on a history whose nondecreasing
timestamps fit in a MaximumCacheValidity-second window is non-negative
and at most MaximumCacheValidity seconds. -/
theorem simplistic_estimate_bound (verifs : List verification)
    (hne : verifs ≠ []) (lo hi : Nat)
    (hmono : (verifs.map verification.timestamp).Pairwise (· ≤ ·))
    (hts : ∀ v ∈ verifs, lo ≤ v.timestamp ∧ v.timestamp ≤ hi)
    (hwin : hi ≤ lo + MaximumCacheValidity * 1000000000) :
    ∃ e, simplisticDetermineEstimation verifs = some e ∧ 0 ≤ e ∧
      e ≤ (MaximumCacheValidity : Int) * nanosPerSecond := by
  have hlast := List.getLast?_eq_getLast verifs hne
  set lastV := verifs.getLast hne with hlv
  set m := verifs.reverse.takeWhile (fun v => EqualVerifications v lastV) with hm
  have hmne : m ≠ [] := by
    rcases hrv : verifs.reverse with _ | ⟨r0, rest⟩
    · have hcon : verifs = [] := by
        rw [← List.reverse_reverse verifs, hrv]
        rfl
      exact absurd hcon hne
    · have h1 : verifs.getLast? = some r0 := by
        rw [← List.head?_reverse, hrv]
        rfl
      have hr0 : r0 = lastV := by
        rw [hlast] at h1
        exact (Option.some_inj.mp h1).symm
      rw [hm, hrv, hr0, List.takeWhile_cons_of_pos]
      · simp
      · show EqualVerifications lastV lastV = true
        unfold EqualVerifications
        exact beq_self_eq_true _
  have hmLast := List.getLast?_eq_getLast m hmne
  set oldestV := m.getLast hmne with hov
  have hoin : oldestV ∈ verifs := by
    have h1 : oldestV ∈ m := List.getLast_mem hmne
    have h2 : oldestV ∈ verifs.reverse :=
      List.Sublist.mem h1 (List.takeWhile_sublist _)
    exact List.mem_reverse.mp h2
  have hole : oldestV.timestamp ≤ lastV.timestamp :=
    timestamp_le_getLast verifs hne hmono oldestV hoin
  obtain ⟨hlo1, _⟩ := hts oldestV hoin
  obtain ⟨_, hhi2⟩ := hts lastV (List.getLast_mem hne)
  have hd0 : (0 : Int) ≤ (lastV.timestamp : Int) - (oldestV.timestamp : Int) := by
    omega
  have hdle : (lastV.timestamp : Int) - (oldestV.timestamp : Int) ≤ 45000000000 := by
    have hwin' : hi ≤ lo + 45 * 1000000000 := by
      simpa [MaximumCacheValidity] using hwin
    omega
  have hu0 : (0 : Int) ≤
      Int.tdiv ((lastV.timestamp : Int) - (oldestV.timestamp : Int)) nanosPerSecond :=
    Int.tdiv_nonneg hd0 (by norm_num [nanosPerSecond])
  have hu45 : Int.tdiv ((lastV.timestamp : Int) - (oldestV.timestamp : Int))
      nanosPerSecond ≤ 45 := by
    have h1 := tdiv_le_tdiv_of_le _ 45000000000 nanosPerSecond hd0
      (by norm_num [nanosPerSecond]) hdle
    have h2 : Int.tdiv 45000000000 nanosPerSecond = 45 := by decide
    rw [h2] at h1
    exact h1
  have hh0 : (0 : Int) ≤ Int.tdiv (Int.tdiv ((lastV.timestamp : Int) -
      (oldestV.timestamp : Int)) nanosPerSecond) 2 :=
    Int.tdiv_nonneg hu0 (by norm_num)
  have hh22 : Int.tdiv (Int.tdiv ((lastV.timestamp : Int) -
      (oldestV.timestamp : Int)) nanosPerSecond) 2 ≤ 22 := by
    have h1 := tdiv_le_tdiv_of_le _ 45 2 hu0 (by norm_num) hu45
    have h2 : Int.tdiv 45 2 = 22 := by decide
    rw [h2] at h1
    exact h1
  refine ⟨Int.tdiv (Int.tdiv ((lastV.timestamp : Int) -
      (oldestV.timestamp : Int)) nanosPerSecond) 2 * nanosPerSecond, ?_, ?_, ?_⟩
  · unfold simplisticDetermineEstimation
    rw [hlast]
    show some (Int.tdiv (Int.tdiv ((lastV.timestamp : Int) -
        ((m.getLast?.getD (⟨0, 0⟩ : verification)).timestamp : Int)) nanosPerSecond)
        2 * nanosPerSecond) = _
    rw [hmLast]
    rfl
  · exact mul_nonneg hh0 (by norm_num [nanosPerSecond])
  · have hns : nanosPerSecond = 1000000000 := rfl
    have hmc : (MaximumCacheValidity : Int) = 45 := rfl
    rw [hns] at hh0 hh22 ⊢
    rw [hmc]
    omega

/-- The tbg1 strategy's estimate, starting from a delta-timestamp store
satisfying its invariant for a MaximumCacheValidity-second window, is
non-negative and at most MaximumCacheValidity seconds, and the new store
satisfies the invariant again. -/
theorem tbg1_estimate_bound (t : dynamicTBG1Strategy)
    (verifs : List verification) (hne : verifs ≠ []) (lo hi : Nat)
    (hts : ∀ v ∈ verifs, lo ≤ v.timestamp ∧ v.timestamp ≤ hi)
    (hwin : hi ≤ lo + MaximumCacheValidity * 1000000000)
    (hdmono : t.deltaTimestamps.Pairwise (· ≤ ·))
    (hdb : ∀ d ∈ t.deltaTimestamps, lo ≤ d ∧ d ≤ hi)
    (hdlast : ∀ d ∈ t.deltaTimestamps, d ≤ (verifs.getLast hne).timestamp) :
    ∃ e t', tbg1DetermineEstimation t verifs = some (e, t') ∧
      0 ≤ e ∧ e ≤ (MaximumCacheValidity : Int) * nanosPerSecond ∧
      t'.prevMessage = some (verifs.getLast hne) ∧
      t'.deltaTimestamps.Pairwise (· ≤ ·) ∧
      (∀ d ∈ t'.deltaTimestamps, lo ≤ d ∧ d ≤ hi) ∧
      (∀ d ∈ t'.deltaTimestamps, d ≤ (verifs.getLast hne).timestamp) := by
  have hlast := List.getLast?_eq_getLast verifs hne
  set lastV := verifs.getLast hne with hlv
  obtain ⟨hllo, hlhi⟩ := hts lastV (List.getLast_mem hne)
  set deltas2 := (if tbg1Equal t.prevMessage lastV then
      t.deltaTimestamps ++ [lastV.timestamp] else t.deltaTimestamps) with hd2
  have hd2mono : deltas2.Pairwise (· ≤ ·) := by
    rw [hd2]
    by_cases heq : tbg1Equal t.prevMessage lastV = true
    · rw [if_pos heq]
      refine List.pairwise_append.mpr ⟨hdmono, List.pairwise_singleton _ _, ?_⟩
      intro d hd x hx
      rw [List.mem_singleton.mp hx]
      exact hdlast d hd
    · rw [if_neg heq]
      exact hdmono
  have hd2b : ∀ d ∈ deltas2, lo ≤ d ∧ d ≤ hi := by
    rw [hd2]
    by_cases heq : tbg1Equal t.prevMessage lastV = true
    · rw [if_pos heq]
      intro d hd
      rcases List.mem_append.mp hd with hd' | hd'
      · exact hdb d hd'
      · rw [List.mem_singleton.mp hd']
        exact ⟨hllo, hlhi⟩
    · rw [if_neg heq]
      exact hdb
  have hd2last : ∀ d ∈ deltas2, d ≤ lastV.timestamp := by
    rw [hd2]
    by_cases heq : tbg1Equal t.prevMessage lastV = true
    · rw [if_pos heq]
      intro d hd
      rcases List.mem_append.mp hd with hd' | hd'
      · exact hdlast d hd'
      · rw [List.mem_singleton.mp hd']
    · rw [if_neg heq]
      exact hdlast
  set avg := (if deltas2.length = 0 then (0 : ℚ)
      else ((consecDiffSum deltas2 : ℚ) / (nanosPerSecond : ℚ)) /
        (deltas2.length : ℚ)) with havg
  have havg0 : 0 ≤ avg ∧ avg ≤ 45 := by
    rw [havg]
    rcases hdl : deltas2 with _ | ⟨d0, drest⟩
    · norm_num
    · rw [if_neg (by simp)]
      have hne2 : (d0 :: drest) ≠ [] := by simp
      have hsum : consecDiffSum (d0 :: drest) =
          (((d0 :: drest).getLast hne2 : Nat) : Int) - (d0 : Int) :=
        consecDiffSum_eq drest d0
      have hmem0 : d0 ∈ deltas2 := by rw [hdl]; exact List.mem_cons_self _ _
      have hmeml : (d0 :: drest).getLast hne2 ∈ deltas2 := by
        rw [hdl]
        exact List.getLast_mem hne2
      have hd0b := hd2b d0 hmem0
      have hdlb := hd2b _ hmeml
      have hhl : d0 ≤ (d0 :: drest).getLast hne2 := by
        have := head_le_getLast_of_pairwise (d0 :: drest) hne2 (hdl ▸ hd2mono)
        exact this
      have hsum0 : (0 : Int) ≤ consecDiffSum (d0 :: drest) := by
        rw [hsum]
        omega
      have hsum45 : consecDiffSum (d0 :: drest) ≤ 45000000000 := by
        rw [hsum]
        have hwin' : hi ≤ lo + 45 * 1000000000 := by
          simpa [MaximumCacheValidity] using hwin
        omega
      have hq0 : (0 : ℚ) ≤ (consecDiffSum (d0 :: drest) : ℚ) := by
        exact_mod_cast hsum0
      have hq45 : (consecDiffSum (d0 :: drest) : ℚ) ≤ 45000000000 := by
        exact_mod_cast hsum45
      have hdiv0 : (0 : ℚ) ≤ (consecDiffSum (d0 :: drest) : ℚ) / (nanosPerSecond : ℚ) := by
        apply div_nonneg hq0
        norm_num [nanosPerSecond]
      have hdiv45 : (consecDiffSum (d0 :: drest) : ℚ) / (nanosPerSecond : ℚ) ≤ 45 := by
        rw [div_le_iff₀ (by norm_num [nanosPerSecond] : (0:ℚ) < (nanosPerSecond : ℚ))]
        calc (consecDiffSum (d0 :: drest) : ℚ) ≤ 45000000000 := hq45
          _ = 45 * (nanosPerSecond : ℚ) := by norm_num [nanosPerSecond]
      constructor
      · apply div_nonneg hdiv0
        positivity
      · calc ((consecDiffSum (d0 :: drest) : ℚ) / (nanosPerSecond : ℚ)) /
            ((d0 :: drest).length : ℚ) ≤
            (consecDiffSum (d0 :: drest) : ℚ) / (nanosPerSecond : ℚ) := by
              apply div_le_self hdiv0
              have : (1 : ℚ) ≤ ((d0 :: drest).length : ℚ) := by
                have hl1 : 1 ≤ (d0 :: drest).length := by simp
                exact_mod_cast hl1
              exact this
        _ ≤ 45 := hdiv45
  refine ⟨ratTrunc avg, ⟨some lastV, deltas2⟩, ?_, ?_, ?_, rfl, hd2mono, hd2b, hd2last⟩
  · unfold tbg1DetermineEstimation
    rw [hlast]
  · exact ratTrunc_nonneg avg havg0.1
  · have h45 := ratTrunc_le_of_le avg 45 havg0.1 (by exact_mod_cast havg0.2)
    have hmc : (MaximumCacheValidity : Int) * nanosPerSecond = 45000000000 := rfl
    rw [hmc]
    omega

/-- The estimation step preserves the run invariant under an installable
strategy: the fresh estimate is bounded by MaximumCacheValidity seconds
and the strategy state keeps its invariant. -/
theorem applyEstimation_installed_inv (s : VerifierState StratState)
    (now : Nat) (p : ℚ) (lo : Nat) (hne : s.verifications ≠ [])
    (hmono : (s.verifications.map verification.timestamp).Pairwise (· ≤ ·))
    (hts : ∀ v ∈ s.verifications, lo ≤ v.timestamp ∧ v.timestamp ≤ s.expiration)
    (hwin : s.expiration ≤ lo + MaximumCacheValidity * 1000000000)
    (hstrat : stratInv lo ((s.verifications.getLast hne).timestamp)
      s.expiration s.strategyState) :
    ∃ s3, applyEstimation installedStrategy s now p = some s3 ∧
      s3.verifications = s.verifications ∧ s3.intervals = s.intervals ∧
      s3.expiration = s.expiration ∧
      (∀ e ∈ s3.estimations, e ∈ s.estimations ∨
        (0 ≤ e.validity ∧
          e.validity ≤ (MaximumCacheValidity : Int) * nanosPerSecond)) ∧
      stratInv lo ((s.verifications.getLast hne).timestamp) s.expiration
        s3.strategyState := by
  rcases hs : s.strategyState with _ | t
  · obtain ⟨e, he, he0, he45⟩ := simplistic_estimate_bound s.verifications hne
      lo s.expiration hmono hts hwin
    refine ⟨{ s with strategyState := .simp,
                     estimations := s.estimations ++ [⟨e, now⟩] },
      ?_, rfl, rfl, rfl, ?_, ?_⟩
    · unfold applyEstimation
      rw [hs]
      have hdet : installedStrategy.determineEstimation .simp s.intervals
          s.verifications s.estimations p =
          (simplisticDetermineEstimation s.verifications).map
            (fun eo => .ok (eo, .simp)) := rfl
      rw [hdet, he]
      rfl
    · intro e' he'
      rcases List.mem_append.mp he' with h1 | h1
      · exact .inl h1
      · right
        rw [List.mem_singleton.mp h1]
        exact ⟨he0, he45⟩
    · trivial
  · have hstrat' : stratInv lo ((s.verifications.getLast hne).timestamp)
        s.expiration (.tbg1 t) := hs ▸ hstrat
    obtain ⟨hdm, hdball⟩ := hstrat'
    obtain ⟨e, t', heq, he0, he45, hprev, hm', hb', hl'⟩ := tbg1_estimate_bound t
      s.verifications hne lo s.expiration hts hwin hdm
      (fun d hd => ⟨(hdball d hd).1, (hdball d hd).2.1⟩)
      (fun d hd => (hdball d hd).2.2)
    refine ⟨{ s with strategyState := .tbg1 t',
                     estimations := s.estimations ++ [⟨e, now⟩] },
      ?_, rfl, rfl, rfl, ?_, ?_⟩
    · unfold applyEstimation
      rw [hs]
      have hdet : installedStrategy.determineEstimation (.tbg1 t) s.intervals
          s.verifications s.estimations p =
          (tbg1DetermineEstimation t s.verifications).map
            (fun r => .ok (r.1, .tbg1 r.2)) := rfl
      rw [hdet, heq]
      rfl
    · intro e' he'
      rcases List.mem_append.mp he' with h1 | h1
      · exact .inl h1
      · right
        rw [List.mem_singleton.mp h1]
        exact ⟨he0, he45⟩
    · exact ⟨hm', fun d hd => ⟨(hb' d hd).1, (hb' d hd).2, hl' d hd⟩⟩

/-- The full updateEstimations preserves the run invariant under an
installable strategy (a percentile error leaves the state unchanged). -/
theorem updateEstimations_installed_inv (s : VerifierState StratState)
    (now : Nat) (lo : Nat) (hne : s.verifications ≠ [])
    (hmono : (s.verifications.map verification.timestamp).Pairwise (· ≤ ·))
    (hts : ∀ v ∈ s.verifications, lo ≤ v.timestamp ∧ v.timestamp ≤ s.expiration)
    (hwin : s.expiration ≤ lo + MaximumCacheValidity * 1000000000)
    (hstrat : stratInv lo ((s.verifications.getLast hne).timestamp)
      s.expiration s.strategyState) :
    ∃ s3, updateEstimations installedStrategy s now = some s3 ∧
      s3.verifications = s.verifications ∧ s3.intervals = s.intervals ∧
      s3.expiration = s.expiration ∧
      (∀ e ∈ s3.estimations, e ∈ s.estimations ∨
        (0 ≤ e.validity ∧
          e.validity ≤ (MaximumCacheValidity : Int) * nanosPerSecond)) ∧
      stratInv lo ((s.verifications.getLast hne).timestamp) s.expiration
        s3.strategyState := by
  unfold updateEstimations
  rcases hp : percentileResponseTime s (95 / 100) with e | p
  · exact ⟨s, rfl, rfl, rfl, rfl, fun e' he' => .inl he', hstrat⟩
  · exact applyEstimation_installed_inv s now p lo hne hmono hts hwin hstrat

/-- The interval step of an installable strategy hands the private
strategy state back unchanged. -/
theorem updateIntervals_installed_strategyState (s : VerifierState StratState)
    (now : Nat) (s4 : VerifierState StratState)
    (h : updateIntervals installedStrategy s now = some s4) :
    s4.strategyState = s.strategyState := by
  unfold updateIntervals at h
  rcases hs : s.strategyState with _ | t
  · rw [hs] at h
    have hdet : installedStrategy.determineInterval .simp s.intervals
        s.verifications s.estimations =
        some (.ok (simplisticDetermineInterval, .simp)) := rfl
    rw [hdet] at h
    cases h
    rfl
  · rw [hs] at h
    have hdet : installedStrategy.determineInterval (.tbg1 t) s.intervals
        s.verifications s.estimations =
        (match tbg1DetermineInterval s.estimations with
          | .ok d => some (.ok (d, .tbg1 t))
          | .error e => some (.error e)) := rfl
    rw [hdet] at h
    rcases hti : tbg1DetermineInterval s.estimations with e | d
    · rw [hti] at h
      cases h
      exact hs
    · rw [hti] at h
      cases h
      rfl

/-- One update call preserves the run invariant under an installable
strategy, moving the latest-instant cap to the call instant. -/
theorem update_installed_inv (s : VerifierState StratState) (reply : Nat)
    (rt : Int) (now lo cap : Nat) (hinv : VerifierInv lo cap s)
    (hcap : cap ≤ now) (hlo : lo ≤ now) :
    ∃ s' b, update installedStrategy s reply rt now = some (s', b) ∧
      VerifierInv lo now s' := by
  obtain ⟨hwin, hts, hmono, hest, hstrat⟩ := hinv
  by_cases hf : finished s now = true
  · refine ⟨s, true, ?_, ?_⟩
    · unfold update
      rw [if_pos hf]
    · exact ⟨hwin,
        fun v hv => ⟨(hts v hv).1, (hts v hv).2.1, le_trans (hts v hv).2.2 hcap⟩,
        hmono, hest,
        stratInv_mono_cap lo cap now s.expiration hcap s.strategyState hstrat⟩
  · have hnow : now ≤ s.expiration := by
      unfold finished at hf
      simp only [decide_eq_true_eq] at hf
      omega
    have hrec := recordResponseTime_fields s rt
    have h2v : (addVerification (recordResponseTime s rt) reply now).verifications
        = s.verifications ++ [⟨reply, now⟩] := by
      show (recordResponseTime s rt).verifications ++ [⟨reply, now⟩] = _
      rw [hrec.2.2.1]
    have h2e : (addVerification (recordResponseTime s rt) reply now).estimations
        = s.estimations := by
      show (recordResponseTime s rt).estimations = s.estimations
      exact hrec.2.2.2.1
    have h2x : (addVerification (recordResponseTime s rt) reply now).expiration
        = s.expiration := by
      show (recordResponseTime s rt).expiration = s.expiration
      exact hrec.2.2.2.2
    have h2st : (addVerification (recordResponseTime s rt) reply now).strategyState
        = s.strategyState := by
      show (recordResponseTime s rt).strategyState = s.strategyState
      exact hrec.1
    have hne2 : (addVerification (recordResponseTime s rt) reply now).verifications
        ≠ [] := by
      rw [h2v]
      simp
    have hgl2 : ((addVerification (recordResponseTime s rt) reply
        now).verifications.getLast hne2) = ⟨reply, now⟩ := by
      have h1 := List.getLast?_eq_getLast _ hne2
      have h2 : (addVerification (recordResponseTime s rt) reply
          now).verifications.getLast? = some ⟨reply, now⟩ := by
        rw [h2v]
        exact List.getLast?_concat _
      rw [h1] at h2
      exact Option.some_inj.mp h2
    have hmono2 : ((addVerification (recordResponseTime s rt) reply
        now).verifications.map verification.timestamp).Pairwise (· ≤ ·) := by
      rw [h2v, List.map_append]
      refine List.pairwise_append.mpr ⟨hmono, by simp, ?_⟩
      intro x hx y hy
      simp only [List.map_cons, List.map_nil, List.mem_singleton] at hy
      rw [List.mem_map] at hx
      obtain ⟨v, hv, hvx⟩ := hx
      rw [hy, ← hvx]
      exact le_trans (hts v hv).2.2 hcap
    have hts2 : ∀ v ∈ (addVerification (recordResponseTime s rt) reply
        now).verifications, lo ≤ v.timestamp ∧
        v.timestamp ≤ (addVerification (recordResponseTime s rt) reply
          now).expiration := by
      rw [h2v, h2x]
      intro v hv
      rcases List.mem_append.mp hv with h1 | h1
      · exact ⟨(hts v h1).1, (hts v h1).2.1⟩
      · rw [List.mem_singleton.mp h1]
        exact ⟨hlo, hnow⟩
    have hwin2 : (addVerification (recordResponseTime s rt) reply
        now).expiration ≤ lo + MaximumCacheValidity * 1000000000 := by
      rw [h2x]
      exact hwin
    have hstrat2 : stratInv lo (((addVerification (recordResponseTime s rt)
        reply now).verifications.getLast hne2).timestamp)
        ((addVerification (recordResponseTime s rt) reply now).expiration)
        ((addVerification (recordResponseTime s rt) reply now).strategyState) := by
      rw [hgl2, h2x, h2st]
      exact stratInv_mono_cap lo cap now s.expiration hcap s.strategyState hstrat
    obtain ⟨s3, h3eq, h3v, h3i, h3x, h3est, h3strat⟩ :=
      updateEstimations_installed_inv
        (addVerification (recordResponseTime s rt) reply now) now lo hne2
        hmono2 hts2 hwin2 hstrat2
    rcases hi4 : updateIntervals installedStrategy s3 now with _ | s4
    · exact absurd hi4 (updateIntervals_installed_ne_none _ _)
    · obtain ⟨h4v, h4e, h4x⟩ := updateIntervals_fields installedStrategy s3 now
        s4 hi4
      have h4st := updateIntervals_installed_strategyState s3 now s4 hi4
      refine ⟨s4, false, ?_, ?_⟩
      · unfold update
        rw [if_neg hf, h3eq]
        show finishUpdate installedStrategy s3 now = some (s4, false)
        unfold finishUpdate
        rw [hi4]
      · refine ⟨?_, ?_, ?_, ?_, ?_⟩
        · rw [h4x, h3x, h2x]
          exact hwin
        · rw [h4v, h3v, h2v]
          intro v hv
          rcases List.mem_append.mp hv with h1 | h1
          · refine ⟨(hts v h1).1, ?_, le_trans (hts v h1).2.2 hcap⟩
            rw [h4x, h3x, h2x]
            exact (hts v h1).2.1
          · rw [List.mem_singleton.mp h1]
            refine ⟨hlo, ?_, le_refl _⟩
            rw [h4x, h3x, h2x]
            exact hnow
        · rw [h4v, h3v]
          exact hmono2
        · rw [h4e]
          intro e' he'
          rcases h3est e' he' with h1 | h1
          · refine hest e' ?_
            rw [← h2e]
            exact h1
          · exact h1
        · rw [h4st, h4x, h3x, h2x]
          have h5 := h3strat
          rw [hgl2, h2x] at h5
          exact h5

/-- Any run of update calls at non-decreasing instants preserves the run
invariant under an installable strategy. -/
theorem runUpdates_installed_inv (obs : List (Nat × Int × Nat)) :
    ∀ (s : VerifierState StratState) (lo cap : Nat),
      VerifierInv lo cap s → lo ≤ cap →
      List.Chain' (· ≤ ·) (cap :: obs.map (fun o => o.2.2)) →
      ∃ s' cap', runUpdates installedStrategy s obs = some s' ∧
        VerifierInv lo cap' s' := by
  induction obs with
  | nil =>
    intro s lo cap hinv _ _
    exact ⟨s, cap, rfl, hinv⟩
  | cons o rest ih =>
    intro s lo cap hinv hlc hchain
    rcases o with ⟨reply, rt, now⟩
    have hchain' : List.Chain' (· ≤ ·)
        (cap :: now :: rest.map (fun o => o.2.2)) := hchain
    have hcapnow : cap ≤ now := (List.chain'_cons.mp hchain').1
    have hrest := (List.chain'_cons.mp hchain').2
    obtain ⟨s1, b, hup, hinv1⟩ := update_installed_inv s reply rt now lo cap
      hinv hcapnow (le_trans hlc hcapnow)
    obtain ⟨s2, cap2, hrun2, hinv2⟩ :=
      ih s1 lo now hinv1 (le_trans hlc hcapnow) hrest
    refine ⟨s2, cap2, ?_, hinv2⟩
    simp only [runUpdates]
    rw [hup]
    exact hrun2

/-- C1: for every installable strategy (simplistic or dynamic-tbg1 as
wired by initializeStrategy), every verifier built by newVerifier with
an expiration within MaximumCacheValidity of its creation, and every
chronological observation sequence, all recorded validity estimations —
hence the estimate returned by the verifier — are non-negative and at
most MaximumCacheValidity seconds; after rounding to whole seconds the
value lies in [0, MaximumCacheValidity], and the max-age the server
interceptor advertises from this estimate is that rounded value. -/
theorem verifier_estimate_bounded (st0 : StratState)
    (hst0 : st0 = .simp ∨ st0 = .tbg1 ⟨none, []⟩)
    (expiration creation resp : Nat) (obs : List (Nat × Int × Nat))
    (s0 s : VerifierState StratState)
    (hexp : expiration ≤ creation + MaximumCacheValidity * 1000000000)
    (hchain : List.Chain' (· ≤ ·) (creation :: obs.map (fun o => o.2.2)))
    (hnv : newVerifier installedStrategy st0 expiration resp creation =
      some (s0, false))
    (hrun : runUpdates installedStrategy s0 obs = some s) :
    (∀ e ∈ s.estimations, 0 ≤ e.validity ∧
        e.validity ≤ (MaximumCacheValidity : Int) * nanosPerSecond) ∧
    0 ≤ estimateVal s ∧
    estimateVal s ≤ (MaximumCacheValidity : Int) * nanosPerSecond ∧
    0 ≤ Int.tdiv (estimateVal s) nanosPerSecond ∧
    Int.tdiv (estimateVal s) nanosPerSecond ≤ (MaximumCacheValidity : Int) ∧
    ∀ r : Nat,
      (unaryServerInterceptor r none (.ok (estimateVal s))).header = none ∨
      (unaryServerInterceptor r none (.ok (estimateVal s))).header =
        some (cacheControlHeader (Int.tdiv (estimateVal s) nanosPerSecond)) := by
  have hinv0 : VerifierInv creation creation (newVerifierState st0 expiration) := by
    refine ⟨hexp, ?_, List.Pairwise.nil, ?_, ?_⟩
    · intro v hv
      exact absurd hv (List.not_mem_nil v)
    · intro e he
      exact absurd he (List.not_mem_nil e)
    · rcases hst0 with h | h
      · subst h
        trivial
      · subst h
        exact ⟨List.Pairwise.nil, fun d hd => absurd hd (List.not_mem_nil d)⟩
  have hnv' : update installedStrategy (newVerifierState st0 expiration) resp
      (-1) creation = some (s0, false) := hnv
  obtain ⟨s0', b', hup, hinv0'⟩ := update_installed_inv
    (newVerifierState st0 expiration) resp (-1) creation creation creation
    hinv0 (le_refl _) (le_refl _)
  rw [hup] at hnv'
  have hpair : s0' = s0 := congrArg Prod.fst (Option.some_inj.mp hnv')
  rw [hpair] at hinv0'
  obtain ⟨s', cap', hrun', hinv'⟩ := runUpdates_installed_inv obs s0 creation
    creation hinv0' (le_refl _) hchain
  rw [hrun'] at hrun
  have hss : s' = s := Option.some_inj.mp hrun
  rw [hss] at hinv'
  obtain ⟨hwinf, htsf, hmonof, hestf, hstratf⟩ := hinv'
  have hb9 : (0 : Int) ≤ nanosPerSecond := by norm_num [nanosPerSecond]
  have hb9' : (0 : Int) < nanosPerSecond := by norm_num [nanosPerSecond]
  have hev : 0 ≤ estimateVal s ∧
      estimateVal s ≤ (MaximumCacheValidity : Int) * nanosPerSecond := by
    unfold estimateVal
    rcases hgl : s.estimations.getLast? with _ | e
    · constructor
      · exact le_refl 0
      · show (0 : Int) ≤ (MaximumCacheValidity : Int) * nanosPerSecond
        norm_num [nanosPerSecond]
    · have hne : s.estimations ≠ [] := by
        intro hh
        rw [hh] at hgl
        exact Option.noConfusion hgl
      have h2 := List.getLast?_eq_getLast s.estimations hne
      rw [h2] at hgl
      have he : e ∈ s.estimations := by
        rw [← Option.some_inj.mp hgl]
        exact List.getLast_mem hne
      exact hestf e he
  refine ⟨hestf, hev.1, hev.2, ?_, ?_, ?_⟩
  · rw [Int.tdiv_eq_ediv hev.1 hb9]
    exact Int.ediv_nonneg hev.1 hb9
  · have h1 := tdiv_le_tdiv_of_le (estimateVal s)
      ((MaximumCacheValidity : Int) * nanosPerSecond) nanosPerSecond hev.1
      hb9' hev.2
    have h2 : Int.tdiv ((MaximumCacheValidity : Int) * nanosPerSecond)
        nanosPerSecond = (MaximumCacheValidity : Int) := by decide
    rw [h2] at h1
    exact h1
  · intro r
    by_cases hpos : 0 < estimateVal s
    · exact Or.inr (by simp [unaryServerInterceptor, hpos])
    · exact Or.inl (by simp [unaryServerInterceptor, hpos])

set_option maxRecDepth 8000 in
/-- Witness for C1: the bounds hold for the concrete two-observation run
of a simplistic-strategy verifier created at instant 1s. -/
theorem verifier_estimate_bounded_witness :
    0 ≤ estimateVal c1sFinal ∧
    estimateVal c1sFinal ≤ (MaximumCacheValidity : Int) * nanosPerSecond ∧
    Int.tdiv (estimateVal c1sFinal) nanosPerSecond ≤
      (MaximumCacheValidity : Int) := by
  have h := verifier_estimate_bounded .simp (Or.inl rfl) 46000000000
    1000000000 7 [(7, 5, 2000000000)] c1s0 c1sFinal (by decide)
    (by simp [List.chain'_cons]) (by rfl) (by rfl)
  exact ⟨h.2.1, h.2.2.1, h.2.2.2.2.1⟩

end GrpcCache
